import Mathlib

/-!
Verification development for the e-voting tallying core
(`backend/app/services/{encryption,threshold_crypto,tallying}.py` and
`backend/app/routers/{results,trustees}.py`).

The Python sources are shallowly embedded: machine operations on arbitrary
precision integers become `Nat`/`Int` operations (Python `pow(b, e, m)` is
`powMod`, Python `%` on integers is `Int.emod`, which agrees with Python for
positive moduli), fallible code returns `Except String`, and the mutable
database session becomes explicit state passing over a record of entity
lists.  Randomness (random polynomial coefficients, Paillier nonces) and
wall-clock timestamps are modelled as explicit parameters, universally
quantified in the theorems.

`threshold_crypto.py` fixes the Shamir field modulus
`2^256 - 2^224 + 2^192 + 2^96 - 1` (`_generate_large_prime`); the round-trip
theorem for secret sharing needs this modulus to actually be prime, which is
established through a chain of Lucas certificates.
-/

set_option maxRecDepth 40000

/-! ## Modular exponentiation

Python `pow(base, exp, mod)`.  Defined with an explicit fuel argument so the
recursion is structural; `powMod` instantiates the fuel with the exponent,
which always suffices since the exponent at least halves every step. -/

def powModAux : Nat → Nat → Nat → Nat → Nat
  | 0, _, _, m => 1 % m
  | fuel+1, b, e, m =>
    if e = 0 then 1 % m
    else
      let r := powModAux fuel ((b * b) % m) (e / 2) m
      if e % 2 = 1 then (b % m * r) % m else r

def powMod (b e m : Nat) : Nat := powModAux e b e m

/-! ## Shamir secret sharing (`threshold_crypto.py`)

`ThresholdCryptoService` works over the fixed 256-bit prime returned by
`_generate_large_prime`.  `split_secret` first reduces the secret to
`int.from_bytes(hashlib.sha256(secret).digest())`; SHA-256 itself is the
Python standard library (external to this repository), so following the spec
("secrets are hashed to 256 bits via SHA-256 before sharing") the digest is
modelled as an arbitrary value `secretInt < 2^256`, passed as a parameter.
The `secrets.randbelow` samples for the non-constant polynomial coefficients
are likewise passed as the explicit list `coeffs`.  Share dictionaries are
serialized as base64 JSON in the source; that round-trip is injective and is
elided here, a share being its `(x, y)` point. -/

def shamirPrime : Nat := 2 ^ 256 - 2 ^ 224 + 2 ^ 192 + 2 ^ 96 - 1

/-- `ThresholdCryptoService._evaluate_polynomial`: Horner-free evaluation,
`result += coef * pow(x, i, prime); result %= prime` over `enumerate`. -/
def evaluatePolynomial (coefficients : List Nat) (x prime : Nat) : Nat :=
  (List.range coefficients.length).foldl
    (fun result i => (result + coefficients.getD i 0 * powMod x i prime) % prime) 0

/-- `ThresholdCryptoService.split_secret`: polynomial
`f = secretInt + coeffs[0] x + ...` evaluated at `x = 1..totalTrustees`. -/
def splitSecret (secretInt : Nat) (coeffs : List Nat) (totalTrustees : Nat) :
    List (Nat × Nat) :=
  (List.range totalTrustees).map
    (fun k => (k + 1, evaluatePolynomial (secretInt :: coeffs) (k + 1) shamirPrime))

/-- `ThresholdCryptoService._lagrange_interpolation`.  Python integers are
signed, so the accumulators live in `ℤ`; Python `%` on a positive modulus is
`Int.emod`.  `pow(denominator, prime - 2, prime)` receives a non-negative
argument (the accumulator is always reduced mod `prime`). -/
def lagrangeInterpolation (points : List (Int × Int)) (x : Int) (prime : Nat) : Int :=
  let P : Int := (prime : Int)
  (List.range points.length).foldl (fun result i =>
    let xi := (points.getD i (0, 0)).1
    let yi := (points.getD i (0, 0)).2
    let numerator := (List.range points.length).foldl
      (fun acc j => if i = j then acc else (acc * (x - (points.getD j (0, 0)).1)) % P) 1
    let denominator := (List.range points.length).foldl
      (fun acc j => if i = j then acc else (acc * (xi - (points.getD j (0, 0)).1)) % P) 1
    let denominatorInv : Int := ((powMod denominator.toNat (prime - 2) prime : Nat) : Int)
    let lagrangeBasis := (numerator * denominatorInv) % P
    (result + yi * lagrangeBasis) % P) 0

/-- `ThresholdCryptoService.reconstruct_secret`: checks the share count, takes
the FIRST `threshold` shares, interpolates at `x = 0`.  The source re-encodes
the resulting integer as base64 of its 32-byte big-endian form (injective on
values below `2^256`, and the result is below `shamirPrime < 2^256`); the
model returns the integer itself. -/
def reconstructSecret (shares : List (Nat × Nat)) (threshold : Nat) :
    Except String Nat :=
  if shares.length < threshold then
    Except.error ("Insufficient shares: " ++ toString shares.length ++ " < " ++ toString threshold)
  else
    Except.ok (lagrangeInterpolation
      ((shares.take threshold).map (fun s => ((s.1 : Int), (s.2 : Int)))) 0 shamirPrime).toNat

/-! ## Paillier encryption (`encryption.py`)

`HomomorphicEncryptionService` delegates the cryptographic primitives to the
`phe` library, which is external to this repository; following §4.B of the
spec they are modelled from the spec: keys are safe primes `p, q` with
`n = p q`, `g = n + 1`, `λ = lcm(p-1, q-1)`, `μ = λ⁻¹ mod n`;
`Encrypt(m) = g^m r^n mod n²` for a nonce `r` coprime to `n`;
`Add(c1, c2) = c1 c2 mod n²`; `Decrypt(c) = L(c^λ mod n²) · μ mod n` with
`L(u) = (u - 1) / n`.  The base64/JSON serialization of ciphertext vectors is
an injective round-trip and is elided: the model works on the deserialized
vectors of residues.  Encryption nonces are explicit `rs` parameters. -/
/-- Modular inverse (Python `pow(a, -1, n)` semantics for coprime `a`),
computed as `a^(φ(n)-1) mod n` by Euler's theorem. -/
def invMod (a n : Nat) : Nat := powMod a (Nat.totient n - 1) n

def paillierLam (p q : Nat) : Nat := Nat.lcm (p - 1) (q - 1)

/-- Modelled from the spec: `Encrypt(pk, m) = (n+1)^m · r^n mod n²`. -/
def paillierEncrypt (n r m : Nat) : Nat :=
  (powMod (n + 1) m (n ^ 2) * powMod r n (n ^ 2)) % n ^ 2

/-- Modelled from the spec: `Add(pk, c1, c2) = c1 · c2 mod n²`. -/
def paillierAdd (n c1 c2 : Nat) : Nat := (c1 * c2) % n ^ 2

/-- Modelled from the spec: `L(u) = (u - 1) / n`. -/
def paillierL (n u : Nat) : Nat := (u - 1) / n

/-- Modelled from the spec: `Decrypt(sk, c) = L(c^λ mod n²) · μ mod n`. -/
def paillierDecrypt (p q c : Nat) : Nat :=
  (paillierL (p * q) (powMod c (paillierLam p q) ((p * q) ^ 2))
    * invMod (paillierLam p q) (p * q)) % (p * q)

/-- `HomomorphicEncryptionService.encrypt_vote`: one-hot vector (1-based
`candidate_id`), each component Paillier-encrypted with its own nonce. -/
def encryptVote (n : Nat) (rs : List Nat) (candidateId numCandidates : Nat) :
    List Nat :=
  (List.range numCandidates).map
    (fun i => paillierEncrypt n (rs.getD i 1) (if i = candidateId - 1 then 1 else 0))

/-- `HomomorphicEncryptionService.aggregate_votes`: errors on an empty list,
otherwise componentwise homomorphic addition onto the first vote (the Python
loop runs over the indices of the accumulated vector; for the equal-length
vectors produced by `encrypt_vote` this is `zipWith`). -/
def aggregateVotes (n : Nat) (encryptedVotes : List (List Nat)) :
    Except String (List Nat) :=
  match encryptedVotes with
  | [] => Except.error "No votes to aggregate"
  | v :: rest => Except.ok (rest.foldl (fun agg w => List.zipWith (paillierAdd n) agg w) v)

/-- `HomomorphicEncryptionService.decrypt_tally`: componentwise decryption. -/
def decryptTally (p q : Nat) (aggregatedTally : List Nat) : List Nat :=
  aggregatedTally.map (paillierDecrypt p q)

/-- `HomomorphicEncryptionService.combine_partial_decryptions`: checks the
count of partial decryptions against the threshold and then IGNORES them,
performing a full decryption of the aggregate. -/
def combinePartialDecryptions {α : Type} (p q : Nat) (aggregatedTally : List Nat)
    (partialDecryptions : List α) (threshold : Nat) : Except String (List Nat) :=
  if partialDecryptions.length < threshold then
    Except.error ("Insufficient partial decryptions: "
      ++ toString partialDecryptions.length ++ " < " ++ toString threshold)
  else
    Except.ok (decryptTally p q aggregatedTally)

/-! ## Tallying service state machine (`tallying.py`, `routers/results.py`)

The SQLAlchemy session becomes explicit state passing over `DBState`, a
record of entity lists mirroring `models/database.py` (fields not read by the
modelled operations are dropped; UUID columns become `String`/`Nat`
identifiers, with fresh UUIDs drawn from the `nextId` counter).  Raised
`ValueError`s become `Except.error` with the source message; every message is
raised before any mutation (or the transaction rolls back), so an error
leaves the state unchanged by construction.  The module-global
`encryption_service` key slots become the `svcPublicKey`/`svcPrivateKey`
fields.  SHA-256 over canonical JSON (`_generate_verification_hash` and its
re-computation in `verify_results`) is an external primitive; it is passed
as a function `H` over the structured hash input, injectivity of the
canonical JSON serialization being implicit in the record type.  Timestamps
(`datetime.utcnow()` and column defaults) are explicit `String` parameters. -/

structure TrusteeRec where
  trusteeId : String
  keyShare : Option String
  status : String
deriving DecidableEq

structure VoteRec where
  electionId : String
  encryptedVote : List Nat
  isTallied : Bool
deriving DecidableEq

structure ElectionRec where
  electionId : String
  status : String
  candidates : List String
  privateKey : Option (Nat × Nat)
deriving DecidableEq

structure SessionRec where
  sessionId : Nat
  electionId : String
  status : String
  aggregatedCiphertext : List Nat
  requiredTrustees : Nat
  completedTrustees : Nat
deriving DecidableEq

structure PartDecRec where
  decryptionId : Nat
  electionId : String
  trusteeId : String
  shareIndex : Nat
  partValues : List String
  verified : Bool
deriving DecidableEq

structure ResultRec where
  electionId : String
  finalTally : List (String × Nat)
  totalVotes : Nat
  verificationHash : String
  isVerified : Bool
  createdAt : String
deriving DecidableEq

structure AuditRec where
  electionId : String
  operationType : String
  performedBy : String
  status : String
deriving DecidableEq

structure DBState where
  elections : List ElectionRec
  votes : List VoteRec
  trustees : List TrusteeRec
  sessions : List SessionRec
  partDecs : List PartDecRec
  results : List ResultRec
  audits : List AuditRec
  svcPublicKey : Option Nat
  svcPrivateKey : Option (Nat × Nat)
  nextId : Nat
deriving DecidableEq

/-- The pre-image of `_generate_verification_hash`: the dict
`{election_id, final_tally, total_votes, timestamp}` (canonical JSON with
sorted keys is injective on it). -/
structure HashInput where
  electionId : String
  finalTally : List (String × Nat)
  totalVotes : Nat
  timestamp : String
deriving DecidableEq

/-- `TallyingService._generate_verification_hash`, with the SHA-256 of the
canonical JSON abstracted as `H` and `datetime.utcnow()` as `now`. -/
def generateVerificationHash (H : HashInput → String) (electionId : String)
    (finalTally : List (String × Nat)) (totalVotes : Nat) (now : String) : String :=
  H ⟨electionId, finalTally, totalVotes, now⟩

def findSession (db : DBState) (electionId : String) : Option SessionRec :=
  db.sessions.find? (fun s => s.electionId == electionId)

structure StartResp where
  sessionId : Nat
  status : String
  totalVotes : Nat
  requiredTrustees : Nat
deriving DecidableEq

/-- `TallyingService.start_tallying`.  `cfgThreshold` is
`self.threshold_crypto.threshold` (3 in the shipped configuration). -/
def startTallying (cfgThreshold : Nat) (db : DBState) (electionId : String) :
    Except String (DBState × StartResp) :=
  match db.elections.find? (fun e => e.electionId == electionId) with
  | none => Except.error "Election not found"
  | some election =>
    if election.status ≠ "active" ∧ election.status ≠ "ended" then
      Except.error ("Cannot tally election with status: " ++ election.status)
    else match findSession db electionId with
    | some _ => Except.error "Tallying session already exists"
    | none =>
      let encryptedVotes := db.votes.filter
        (fun v => v.electionId == electionId && !v.isTallied)
      if encryptedVotes.isEmpty then
        Except.error "No votes to tally"
      else match db.svcPublicKey with
      | none => Except.error "Aggregation failed: Public key not loaded"
      | some n =>
        match aggregateVotes n (encryptedVotes.map (fun v => v.encryptedVote)) with
        | Except.error e => Except.error ("Aggregation failed: " ++ e)
        | Except.ok agg =>
          let newSession : SessionRec :=
            ⟨db.nextId, electionId, "aggregating", agg, cfgThreshold, 0⟩
          Except.ok
            ({ db with
                sessions := newSession :: db.sessions,
                elections := db.elections.map (fun e =>
                  if e.electionId == electionId then { e with status := "tallying" } else e),
                audits := ⟨electionId, "start_tally", "system", "success"⟩ :: db.audits,
                nextId := db.nextId + 1 },
             ⟨db.nextId, "aggregating", encryptedVotes.length, cfgThreshold⟩)

structure PartDecResp where
  decryptionId : Nat
  completedTrustees : Nat
  requiredTrustees : Nat
  canFinalize : Bool
deriving DecidableEq

/-- `TallyingService.partial_decrypt`.  The simulated
`encryption.partial_decrypt` result is the pair (share index, stringified
ciphertexts); the decryption proof (a hash of trustee, ciphertext digest and
timestamp) is audit-only and not tracked. -/
def partDecrypt (db : DBState) (electionId trusteeId : String) :
    Except String (DBState × PartDecResp) :=
  match findSession db electionId with
  | none => Except.error "Tallying session not found"
  | some session =>
    if session.status ≠ "aggregating" ∧ session.status ≠ "decrypting" then
      Except.error ("Cannot decrypt in status: " ++ session.status)
    else match db.partDecs.find?
        (fun pd => pd.electionId == electionId && pd.trusteeId == trusteeId) with
    | some _ => Except.error "Trustee already performed partial decryption"
    | none =>
      match db.trustees.find? (fun t => t.trusteeId == trusteeId) with
      | none => Except.error "Trustee not found or missing key share"
      | some trustee =>
        if trustee.keyShare = none then
          Except.error "Trustee not found or missing key share"
        else
          -- load the election's private key into the global service, if present
          let newSvcKey := match db.elections.find? (fun e => e.electionId == electionId) with
            | some election => match election.privateKey with
              | some k => some k
              | none => db.svcPrivateKey
            | none => db.svcPrivateKey
          match newSvcKey with
          | none => Except.error "Private key not loaded"
          | some _ =>
            let newPd : PartDecRec :=
              ⟨db.nextId, electionId, trusteeId, session.completedTrustees + 1,
                session.aggregatedCiphertext.map toString, true⟩
            Except.ok
              ({ db with
                  partDecs := newPd :: db.partDecs,
                  sessions := db.sessions.map (fun s =>
                    if s.electionId == electionId then
                      { s with
                          completedTrustees := s.completedTrustees + 1,
                          status := if s.status = "aggregating" then "decrypting" else s.status }
                    else s),
                  audits := ⟨electionId, "partial_decrypt", trusteeId, "success"⟩ :: db.audits,
                  svcPrivateKey := newSvcKey,
                  nextId := db.nextId + 1 },
               ⟨db.nextId, session.completedTrustees + 1, session.requiredTrustees,
                 session.completedTrustees + 1 ≥ session.requiredTrustees⟩)

structure FinalizeResp where
  finalTally : List (String × Nat)
  totalVotes : Nat
  verificationHash : String
deriving DecidableEq

/-- `TallyingService.finalize_tally`.  `now` is the `datetime.utcnow()` used
inside `_generate_verification_hash`; `createdAt` is the later
`created_at` column default of the inserted `ElectionResult` row.  There is
NO session-status check, no consistency check of the decrypted tally against
the ballot count, and no transition to a failed state. -/
def finalizeTally (H : HashInput → String) (now createdAt : String)
    (db : DBState) (electionId : String) :
    Except String (DBState × FinalizeResp) :=
  match findSession db electionId with
  | none => Except.error "Tallying session not found"
  | some session =>
    if session.completedTrustees < session.requiredTrustees then
      Except.error ("Insufficient trustees: " ++ toString session.completedTrustees
        ++ " < " ++ toString session.requiredTrustees)
    else
      let partDecs := db.partDecs.filter
        (fun pd => pd.electionId == electionId && pd.verified)
      if partDecs.length < session.requiredTrustees then
        Except.error "Insufficient verified partial decryptions"
      else match db.svcPrivateKey with
      | none => Except.error "Finalization failed: Private key not loaded"
      | some (kp, kq) =>
        match combinePartialDecryptions kp kq session.aggregatedCiphertext partDecs
            session.requiredTrustees with
        | Except.error e => Except.error ("Finalization failed: " ++ e)
        | Except.ok finalTallyArray =>
          match db.elections.find? (fun e => e.electionId == electionId) with
          | none => Except.error "AttributeError: candidates"
          | some election =>
            let finalTally := (List.range election.candidates.length).map
              (fun i => (election.candidates.getD i "", finalTallyArray.getD i 0))
            let totalVotes := (finalTally.map Prod.snd).sum
            let verificationHash :=
              generateVerificationHash H electionId finalTally totalVotes now
            Except.ok
              ({ db with
                  results := ⟨electionId, finalTally, totalVotes, verificationHash,
                    true, createdAt⟩ :: db.results,
                  sessions := db.sessions.map (fun s =>
                    if s.electionId == electionId then { s with status := "completed" } else s),
                  elections := db.elections.map (fun e =>
                    if e.electionId == electionId then { e with status := "completed" } else e),
                  votes := db.votes.map (fun v =>
                    if v.electionId == electionId then { v with isTallied := true } else v),
                  audits := ⟨electionId, "finalize_tally", "system", "success"⟩ :: db.audits },
               ⟨finalTally, totalVotes, verificationHash⟩)

/-- `verify_results` (`routers/results.py`): recompute the hash over the
stored tally with `result.created_at` as the timestamp and compare.  Returns
`(is_valid, computed_hash, stored_hash)`. -/
def verifyResults (H : HashInput → String) (db : DBState) (electionId : String) :
    Except String (Bool × String × String) :=
  match db.results.find? (fun r => r.electionId == electionId) with
  | none => Except.error "Results not found"
  | some result =>
    let computedHash :=
      H ⟨result.electionId, result.finalTally, result.totalVotes, result.createdAt⟩
    Except.ok (computedHash == result.verificationHash, computedHash,
      result.verificationHash)

/-- A state with one election of a single candidate, a single uncounted
ballot whose stored ciphertext was tampered to decrypt to 2, a decrypting
session with its one required trustee completed. -/
def dbC2 : DBState :=
  ⟨[⟨"e1", "tallying", ["A"], some (3, 5)⟩],
   [⟨"e1", [158], false⟩],
   [⟨"t1", some "ks", "active"⟩],
   [⟨0, "e1", "decrypting", [158], 1, 1⟩],
   [⟨1, "e1", "t1", 1, ["158"], true⟩],
   [], [], some 15, some (3, 5), 2⟩

/-- `dbC2` with the session already completed (state is NOT decrypting). -/
def dbC6 : DBState :=
  ⟨[⟨"e1", "completed", ["A"], some (3, 5)⟩],
   [⟨"e1", [158], true⟩],
   [⟨"t1", some "ks", "active"⟩],
   [⟨0, "e1", "completed", [158], 1, 1⟩],
   [⟨1, "e1", "t1", 1, ["158"], true⟩],
   [], [], some 15, some (3, 5), 2⟩

/-- `dbC2` with no trustee completed yet. -/
def dbC6w : DBState :=
  ⟨[⟨"e1", "tallying", ["A"], some (3, 5)⟩],
   [⟨"e1", [158], false⟩],
   [⟨"t1", some "ks", "active"⟩],
   [⟨0, "e1", "decrypting", [158], 1, 0⟩],
   [],
   [], [], some 15, some (3, 5), 2⟩

/-- An INACTIVE trustee that still holds a key share. -/
def dbC7 : DBState :=
  ⟨[⟨"e1", "tallying", ["A"], some (3, 5)⟩],
   [⟨"e1", [158], false⟩],
   [⟨"t1", some "ks", "inactive"⟩],
   [⟨0, "e1", "decrypting", [158], 1, 0⟩],
   [],
   [], [], some 15, some (3, 5), 1⟩

/-- An active trustee with no key share on file. -/
def dbC7w : DBState :=
  ⟨[⟨"e1", "tallying", ["A"], some (3, 5)⟩],
   [⟨"e1", [158], false⟩],
   [⟨"t1", none, "active"⟩],
   [⟨0, "e1", "decrypting", [158], 1, 0⟩],
   [],
   [], [], some 15, some (3, 5), 1⟩

/-- The state after the first successful `partDecrypt dbC6w "e1" "t1"`. -/
def dbC3s : DBState :=
  ⟨[⟨"e1", "tallying", ["A"], some (3, 5)⟩],
   [⟨"e1", [158], false⟩],
   [⟨"t1", some "ks", "active"⟩],
   [⟨0, "e1", "decrypting", [158], 1, 1⟩],
   [⟨2, "e1", "t1", 1, ["158"], true⟩],
   [], [⟨"e1", "partial_decrypt", "t1", "success"⟩], some 15, some (3, 5), 3⟩

/-- The state `finalizeTally (fun h => h.timestamp) "t1" "t2" dbC2 "e1"`
produces. -/
def dbC1s : DBState :=
  ⟨[⟨"e1", "completed", ["A"], some (3, 5)⟩],
   [⟨"e1", [158], true⟩],
   [⟨"t1", some "ks", "active"⟩],
   [⟨0, "e1", "completed", [158], 1, 1⟩],
   [⟨1, "e1", "t1", 1, ["158"], true⟩],
   [⟨"e1", [("A", 2)], 2, "t1", true, "t2"⟩],
   [⟨"e1", "finalize_tally", "system", "success"⟩],
   some 15, some (3, 5), 2⟩

/-- Number of persisted partial-decryption rows for an election. -/
def countPd (db : DBState) (eid : String) : Nat :=
  (db.partDecs.filter (fun pd => pd.electionId == eid)).length

/-- `completed_trustees` of the election's tallying session (0 if none). -/
def completedOf (db : DBState) (eid : String) : Nat :=
  match findSession db eid with
  | some s => s.completedTrustees
  | none => 0

/-- The session/partial-decryption consistency invariant: every session's
counter equals the row count for its election, and every partial belongs to
some session's election. -/
def SessionInv (db : DBState) : Prop :=
  (∀ s ∈ db.sessions, s.completedTrustees = countPd db s.electionId)
  ∧ ∀ pd ∈ db.partDecs, ∃ s, s ∈ db.sessions ∧ s.electionId = pd.electionId

/-- States reachable by the tallying service from a state with no session
and no partial decryption on file. -/
inductive Reachable : DBState → Prop where
  | init (db : DBState) (hs : db.sessions = []) (hp : db.partDecs = []) :
      Reachable db
  | step_start (cfgT : Nat) (db db' : DBState) (eid : String) (resp : StartResp)
      (hdb : Reachable db) (h : startTallying cfgT db eid = Except.ok (db', resp)) :
      Reachable db'
  | step_pdec (db db' : DBState) (eid tid : String) (resp : PartDecResp)
      (hdb : Reachable db) (h : partDecrypt db eid tid = Except.ok (db', resp)) :
      Reachable db'
  | step_finalize (H : HashInput → String) (now createdAt : String)
      (db db' : DBState) (eid : String) (resp : FinalizeResp) (hdb : Reachable db)
      (h : finalizeTally H now createdAt db eid = Except.ok (db', resp)) :
      Reachable db'

/-- A pre-tallying state: one active election, one ballot, no session, no
partial decryption. -/
def dbC8z : DBState :=
  ⟨[⟨"e1", "active", ["A"], some (3, 5)⟩],
   [⟨"e1", [158], false⟩],
   [⟨"t1", some "ks", "active"⟩],
   [], [], [], [], some 15, some (3, 5), 0⟩

/-- The state `startTallying 1 dbC8z "e1"` produces. -/
def dbC8a : DBState :=
  ⟨[⟨"e1", "tallying", ["A"], some (3, 5)⟩],
   [⟨"e1", [158], false⟩],
   [⟨"t1", some "ks", "active"⟩],
   [⟨0, "e1", "aggregating", [158], 1, 0⟩],
   [], [],
   [⟨"e1", "start_tally", "system", "success"⟩],
   some 15, some (3, 5), 1⟩

theorem powModAux_eq (fuel : Nat) : ∀ e b m, e ≤ fuel → 0 < m →
    powModAux fuel b e m = b ^ e % m := by
  induction fuel with
  | zero =>
    intro e b m he _
    interval_cases e
    simp [powModAux]
  | succ fuel ih =>
    intro e b m he hm
    by_cases he0 : e = 0
    · simp [powModAux, he0]
    · have hdiv : e / 2 ≤ fuel := by
        have h2 : e / 2 < e := Nat.div_lt_self (Nat.pos_of_ne_zero he0) one_lt_two
        omega
      have hr : powModAux fuel ((b * b) % m) (e / 2) m = ((b * b) % m) ^ (e / 2) % m :=
        ih (e / 2) ((b * b) % m) m hdiv hm
      have hbb : ((b * b) % m) ^ (e / 2) % m = (b * b) ^ (e / 2) % m := by
        rw [Nat.pow_mod, Nat.mod_mod_of_dvd, ← Nat.pow_mod]
        exact dvd_refl m
      have hsplit : e = 2 * (e / 2) + e % 2 := (Nat.div_add_mod' e 2).symm ▸ by omega
      simp only [powModAux, he0, if_false]
      by_cases hodd : e % 2 = 1
      · simp only [hodd, if_true]
        rw [hr, hbb, Nat.mul_mod, Nat.mod_mod_of_dvd _ (dvd_refl m), Nat.mod_mod_of_dvd _ (dvd_refl m),
          ← Nat.mul_mod]
        congr 1
        have hb2 : b * b = b ^ 2 := by ring
        rw [hb2, ← pow_mul, mul_comm b (b ^ (2 * (e / 2))), ← pow_succ]
        congr 1
        omega
      · have heven : e % 2 = 0 := by omega
        simp only [hodd, if_false]
        rw [hr, hbb]
        congr 1
        have hb2 : b * b = b ^ 2 := by ring
        rw [hb2, ← pow_mul]
        congr 1
        omega

theorem powMod_eq (b e m : Nat) (hm : 0 < m) : powMod b e m = b ^ e % m :=
  powModAux_eq e e b m le_rfl hm

theorem powMod_cast_zmod (m : Nat) (hm : 0 < m) (b e : Nat) :
    ((powMod b e m : Nat) : ZMod m) = (b : ZMod m) ^ e := by
  rw [powMod_eq b e m hm, ZMod.natCast_mod, Nat.cast_pow]

theorem powModAux_lt (fuel : Nat) : ∀ e b m, 0 < m → powModAux fuel b e m < m := by
  induction fuel with
  | zero => intro e b m hm; simpa [powModAux] using Nat.mod_lt _ hm
  | succ fuel ih =>
    intro e b m hm
    by_cases he0 : e = 0
    · simpa [powModAux, he0] using Nat.mod_lt _ hm
    · simp only [powModAux, he0, if_false]
      by_cases hodd : e % 2 = 1
      · simpa [hodd] using Nat.mod_lt _ hm
      · simpa [hodd] using ih (e / 2) ((b * b) % m) m hm

theorem powMod_lt (b e m : Nat) (hm : 0 < m) : powMod b e m < m :=
  powModAux_lt e e b m hm

/-- Transfer a concrete `powMod` identity into `ZMod`. -/
theorem zmod_pow_eq_one_of_powMod (p a e : Nat) (hp : 0 < p)
    (h : powMod a e p = 1) : ((a : ZMod p)) ^ e = 1 := by
  rw [← powMod_cast_zmod p hp a e, h, Nat.cast_one]

/-- Transfer a concrete `powMod` disequality into `ZMod`. -/
theorem zmod_pow_ne_one_of_powMod (p a e : Nat) (hp : 1 < p)
    (h : powMod a e p ≠ 1) : ((a : ZMod p)) ^ e ≠ 1 := by
  intro hcontra
  apply h
  rw [← powMod_cast_zmod p (by omega) a e] at hcontra
  have h1 : ((1 : Nat) : ZMod p) = 1 := Nat.cast_one
  rw [← h1] at hcontra
  haveI : NeZero p := ⟨by omega⟩
  have := (ZMod.natCast_eq_natCast_iff _ _ _).mp hcontra
  have hlt : powMod a e p < p := powMod_lt a e p (by omega)
  have h1p : 1 % p = 1 := Nat.mod_eq_of_lt hp
  calc powMod a e p = powMod a e p % p := (Nat.mod_eq_of_lt hlt).symm
    _ = 1 % p := this
    _ = 1 := h1p

/-- A Lucas certificate checker: `n` is prime if some `a` has
`a ^ (n-1) = 1 mod n` but `a ^ ((n-1)/q) ≠ 1 mod n` for every prime `q`
in a complete factor list of `n - 1` (multiplicities included). -/
theorem prime_of_lucas_cert (n a : Nat) (factors : List Nat) (hn : 1 < n)
    (hprod : n - 1 = factors.prod)
    (hfacts : ∀ q ∈ factors, q.Prime)
    (ha : powMod a (n - 1) n = 1)
    (hd : ∀ q ∈ factors, powMod a ((n - 1) / q) n ≠ 1) : n.Prime := by
  apply lucas_primality n (a : ZMod n)
  · exact zmod_pow_eq_one_of_powMod n a (n - 1) (by omega) ha
  · intro q hq hdvd
    have hmem : q ∈ factors := by
      have hdp : q ∣ factors.prod := hprod ▸ hdvd
      obtain ⟨x, hx, hqx⟩ := (Prime.dvd_prod_iff hq.prime).mp hdp
      have : q = x := (Nat.prime_dvd_prime_iff_eq hq (hfacts x hx)).mp hqx
      exact this ▸ hx
    exact zmod_pow_ne_one_of_powMod n a ((n - 1) / q) hn (hd q hmem)

theorem prime_2 : Nat.Prime 2 := by norm_num

theorem prime_3 : Nat.Prime 3 := by norm_num

theorem prime_5 : Nat.Prime 5 := by norm_num

theorem prime_7 : Nat.Prime 7 := by norm_num

theorem prime_11 : Nat.Prime 11 := by norm_num

theorem prime_17 : Nat.Prime 17 := by norm_num

theorem prime_23 : Nat.Prime 23 := by norm_num

theorem prime_53 : Nat.Prime 53 := by norm_num

theorem prime_107 : Nat.Prime 107 := by norm_num

theorem prime_173 : Nat.Prime 173 := by norm_num

theorem prime_197 : Nat.Prime 197 := by norm_num

theorem prime_257 : Nat.Prime 257 := by norm_num

theorem prime_641 : Nat.Prime 641 := by norm_num

theorem prime_1531 : Nat.Prime 1531 := by norm_num

theorem prime_2411 : Nat.Prime 2411 := by norm_num

theorem prime_3677 : Nat.Prime 3677 := by norm_num

theorem prime_3769 : Nat.Prime 3769 := by norm_num

theorem prime_17449 : Nat.Prime 17449 := by norm_num

theorem prime_18169 : Nat.Prime 18169 := by norm_num

theorem prime_65537 : Nat.Prime 65537 := by norm_num

theorem prime_78283 : Nat.Prime 78283 := by norm_num

theorem prime_490463 : Nat.Prime 490463 := by norm_num

theorem prime_704251 : Nat.Prime 704251 := by norm_num

theorem prime_6700417 : Nat.Prime 6700417 := by
  apply prime_of_lucas_cert 6700417 5 [2, 2, 2, 2, 2, 2, 2, 3, 17449]
  · norm_num
  · decide
  · intro q hq
    fin_cases hq <;> [exact prime_2; exact prime_2; exact prime_2; exact prime_2; exact prime_2; exact prime_2; exact prime_2; exact prime_3; exact prime_17449]
  · decide
  · decide

theorem prime_204061199 : Nat.Prime 204061199 := by
  apply prime_of_lucas_cert 204061199 11 [2, 11, 23, 107, 3769]
  · norm_num
  · decide
  · intro q hq
    fin_cases hq <;> [exact prime_2; exact prime_11; exact prime_23; exact prime_107; exact prime_3769]
  · decide
  · decide

theorem prime_34282281433 : Nat.Prime 34282281433 := by
  apply prime_of_lucas_cert 34282281433 17 [2, 2, 2, 3, 7, 204061199]
  · norm_num
  · decide
  · intro q hq
    fin_cases hq <;> [exact prime_2; exact prime_2; exact prime_2; exact prime_3; exact prime_7; exact prime_204061199]
  · decide
  · decide

theorem prime_66417393611 : Nat.Prime 66417393611 := by
  apply prime_of_lucas_cert 66417393611 6 [2, 5, 53, 173, 197, 3677]
  · norm_num
  · decide
  · intro q hq
    fin_cases hq <;> [exact prime_2; exact prime_5; exact prime_53; exact prime_173; exact prime_197; exact prime_3677]
  · decide
  · decide

theorem prime_11290956913871 : Nat.Prime 11290956913871 := by
  apply prime_of_lucas_cert 11290956913871 13 [2, 5, 17, 66417393611]
  · norm_num
  · decide
  · intro q hq
    fin_cases hq <;> [exact prime_2; exact prime_5; exact prime_17; exact prime_66417393611]
  · decide
  · decide

theorem prime_46076956964474543 : Nat.Prime 46076956964474543 := by
  apply prime_of_lucas_cert 46076956964474543 5 [2, 23, 18169, 78283, 704251]
  · norm_num
  · decide
  · intro q hq
    fin_cases hq <;> [exact prime_2; exact prime_23; exact prime_18169; exact prime_78283; exact prime_704251]
  · decide
  · decide

theorem prime_c45_774023 : Nat.Prime 774023187263532362759620327192479577272145303 := by
  apply prime_of_lucas_cert 774023187263532362759620327192479577272145303 3 [2, 3, 3, 2411, 34282281433, 11290956913871, 46076956964474543]
  · norm_num
  · decide
  · intro q hq
    fin_cases hq <;> [exact prime_2; exact prime_3; exact prime_3; exact prime_2411; exact prime_34282281433; exact prime_11290956913871; exact prime_46076956964474543]
  · decide
  · decide

theorem prime_c48_835945 : Nat.Prime 835945042244614951780389953367877943453916927241 := by
  apply prime_of_lucas_cert 835945042244614951780389953367877943453916927241 11 [2, 2, 2, 3, 3, 3, 5, 774023187263532362759620327192479577272145303]
  · norm_num
  · decide
  · intro q hq
    fin_cases hq <;> [exact prime_2; exact prime_2; exact prime_2; exact prime_3; exact prime_3; exact prime_3; exact prime_5; exact prime_c45_774023]
  · decide
  · decide

theorem prime_c78_115792 : Nat.Prime 115792089210356248762697446949407573530086143415290314195533631308867097853951 := by
  apply prime_of_lucas_cert 115792089210356248762697446949407573530086143415290314195533631308867097853951 6 [2, 3, 5, 5, 17, 257, 641, 1531, 65537, 490463, 6700417, 835945042244614951780389953367877943453916927241]
  · norm_num
  · decide
  · intro q hq
    fin_cases hq <;> [exact prime_2; exact prime_3; exact prime_5; exact prime_5; exact prime_17; exact prime_257; exact prime_641; exact prime_1531; exact prime_65537; exact prime_490463; exact prime_6700417; exact prime_c48_835945]
  · decide
  · decide

theorem shamirPrime_prime : Nat.Prime shamirPrime := by
  have h : shamirPrime =
      115792089210356248762697446949407573530086143415290314195533631308867097853951 := by
    norm_num [shamirPrime]
  rw [h]
  exact prime_c78_115792

/-! ### Fold bookkeeping lemmas

The Python loops become `List.foldl` over `List.range`; these lemmas expose
their values as `Finset` sums and products in `ZMod p`, plus the sign and
size facts needed to move between `ℤ`, `ℕ` and `ZMod`. -/

theorem listRange_map_sum {M : Type} [AddCommMonoid M] (g : Nat → M) (n : Nat) :
    ((List.range n).map g).sum = ∑ j in Finset.range n, g j := by
  induction n with
  | zero => simp
  | succ n ih => rw [List.range_succ, List.map_append, List.sum_append,
      Finset.sum_range_succ, ih]; simp

theorem listRange_filter_map_prod {M : Type} [CommMonoid M] (g : Nat → M) (i n : Nat) :
    (((List.range n).filter (fun j => ! (i == j))).map g).prod
      = ∏ j in (Finset.range n).erase i, g j := by
  induction n with
  | zero => simp
  | succ n ih =>
    rw [List.range_succ, List.filter_append, List.map_append, List.prod_append, ih]
    by_cases h : i = n
    · subst h
      rw [Finset.range_succ, Finset.erase_insert (Finset.not_mem_range_self)]
      simp
    · rw [Finset.range_succ, Finset.erase_insert_of_ne (Ne.symm h),
        Finset.prod_insert (fun hc => Finset.not_mem_range_self (Finset.mem_of_mem_erase hc))]
      have hfil : (List.filter (fun j => ! (i == j)) [n]) = [n] := by
        simp [Ne.symm h, h]
      rw [hfil]
      simp [mul_comm]

theorem innerFold_nonneg (P : Int) (hP : P ≠ 0) (i : Nat) (w : Nat → Int)
    (l : List Nat) (a : Int) (ha : 0 ≤ a) :
    0 ≤ l.foldl (fun acc j => if i = j then acc else (acc * w j) % P) a := by
  induction l generalizing a with
  | nil => exact ha
  | cons x t ih =>
    simp only [List.foldl_cons]
    by_cases h : i = x
    · rw [if_pos h]; exact ih a ha
    · rw [if_neg h]; exact ih _ (Int.emod_nonneg _ hP)

theorem innerFold_cast (p : Nat) [NeZero p] (i : Nat) (w : Nat → Int)
    (l : List Nat) (a : Int) :
    ((l.foldl (fun acc j => if i = j then acc else (acc * w j) % ((p : Nat) : Int)) a : Int) : ZMod p)
      = (a : ZMod p) * ((l.filter (fun j => ! (i == j))).map (fun j => ((w j : Int) : ZMod p))).prod := by
  induction l generalizing a with
  | nil => simp
  | cons x t ih =>
    simp only [List.foldl_cons, List.filter_cons]
    by_cases h : i = x
    · have hb : (! (i == x)) = false := by simp [h]
      rw [if_pos h, hb]
      simpa using ih a
    · have hb : (! (i == x)) = true := by simp [h]
      rw [if_neg h, hb]
      simp only [ite_true]
      rw [ih ((a * w x) % (p : Int))]
      rw [ZMod.intCast_mod, Int.cast_mul]
      simp [mul_assoc]

theorem outerFold_nonneg (P : Int) (hP : P ≠ 0) (z : Nat → Int)
    (l : List Nat) (a : Int) (ha : 0 ≤ a) :
    0 ≤ l.foldl (fun acc i => (acc + z i) % P) a := by
  induction l generalizing a with
  | nil => exact ha
  | cons x t ih => exact ih _ (Int.emod_nonneg _ hP)

theorem outerFold_lt (P : Int) (hP : 0 < P) (z : Nat → Int)
    (l : List Nat) (a : Int) (hl : l ≠ []) :
    l.foldl (fun acc i => (acc + z i) % P) a < P := by
  induction l generalizing a with
  | nil => exact absurd rfl hl
  | cons x t ih =>
    simp only [List.foldl_cons]
    rcases t with _ | ⟨y, t⟩
    · simpa using Int.emod_lt_of_pos _ hP
    · exact ih _ (by simp)

theorem outerFold_cast (p : Nat) [NeZero p] (z : Nat → Int) (l : List Nat) (a : Int) :
    ((l.foldl (fun acc i => (acc + z i) % ((p : Nat) : Int)) a : Int) : ZMod p)
      = (a : ZMod p) + (l.map (fun i => ((z i : Int) : ZMod p))).sum := by
  induction l generalizing a with
  | nil => simp
  | cons x t ih =>
    simp only [List.foldl_cons, List.map_cons, List.sum_cons]
    rw [ih, ZMod.intCast_mod, Int.cast_add]
    ring

theorem natFold_lt (p : Nat) (hp : 0 < p) (z : Nat → Nat) (l : List Nat) (a : Nat)
    (hl : l ≠ []) : l.foldl (fun acc i => (acc + z i) % p) a < p := by
  induction l generalizing a with
  | nil => exact absurd rfl hl
  | cons x t ih =>
    simp only [List.foldl_cons]
    rcases t with _ | ⟨y, t⟩
    · simpa using Nat.mod_lt _ hp
    · exact ih _ (by simp)

theorem natFold_cast (p : Nat) [NeZero p] (z : Nat → Nat) (l : List Nat) (a : Nat) :
    ((l.foldl (fun acc i => (acc + z i) % p) a : Nat) : ZMod p)
      = (a : ZMod p) + (l.map (fun i => ((z i : Nat) : ZMod p))).sum := by
  induction l generalizing a with
  | nil => simp
  | cons x t ih =>
    simp only [List.foldl_cons, List.map_cons, List.sum_cons]
    rw [ih, ZMod.natCast_mod, Nat.cast_add]
    ring

/-- Fermat inverse: in `ZMod p` with `p` prime, `a ^ (p - 2) = a⁻¹` for `a ≠ 0`. -/
theorem pow_totient_sub_one_inv {p : Nat} [hF : Fact p.Prime] {a : ZMod p} (ha : a ≠ 0) :
    a ^ (p - 2) = a⁻¹ := by
  have hp2 : 2 ≤ p := hF.out.two_le
  have h1 : a * a ^ (p - 2) = 1 := by
    have : a ^ (p - 1) = 1 := ZMod.pow_card_sub_one_eq_one ha
    calc a * a ^ (p - 2) = a ^ (p - 2 + 1) := by rw [pow_succ, mul_comm]
      _ = a ^ (p - 1) := by congr 1; omega
      _ = 1 := this
  have hinv : a⁻¹ * (a * a ^ (p - 2)) = a⁻¹ * 1 := by rw [h1]
  rwa [← mul_assoc, inv_mul_cancel₀ ha, one_mul, mul_one] at hinv

/-- Value, bounds and `ZMod` reading of `_lagrange_interpolation`: the result
is the classical Lagrange value `∑ yᵢ ∏ (x - xⱼ) ∏ (xᵢ - xⱼ)⁻¹` in the field,
provided the x-coordinates are pairwise distinct mod `p`. -/
theorem lagrangeInterpolation_spec (p : Nat) [hF : Fact p.Prime]
    (pts : List (Int × Int)) (x : Int) (hne : pts ≠ [])
    (hdist : ∀ i j, i < pts.length → j < pts.length → i ≠ j →
      (((pts.getD i (0, 0)).1 : ZMod p) ≠ ((pts.getD j (0, 0)).1 : ZMod p))) :
    0 ≤ lagrangeInterpolation pts x p ∧ lagrangeInterpolation pts x p < (p : Int) ∧
    ((lagrangeInterpolation pts x p : Int) : ZMod p) =
      ∑ i in Finset.range pts.length,
        ((pts.getD i (0, 0)).2 : ZMod p) *
          ((∏ j in (Finset.range pts.length).erase i,
              ((x : ZMod p) - ((pts.getD j (0, 0)).1 : ZMod p))) *
           (∏ j in (Finset.range pts.length).erase i,
              (((pts.getD i (0, 0)).1 : ZMod p) - ((pts.getD j (0, 0)).1 : ZMod p)))⁻¹) := by
  haveI : NeZero p := ⟨hF.out.ne_zero⟩
  have hp0 : 0 < p := hF.out.pos
  have hPz : ((p : Nat) : Int) ≠ 0 := by exact_mod_cast hp0.ne'
  have hPpos : (0 : Int) < ((p : Nat) : Int) := by exact_mod_cast hp0
  have hrange : List.range pts.length ≠ [] := by
    have : pts.length ≠ 0 := fun h => hne (List.eq_nil_of_length_eq_zero h)
    simpa [List.range_eq_nil]
  simp only [lagrangeInterpolation]
  refine ⟨outerFold_nonneg _ hPz _ _ _ le_rfl, outerFold_lt _ hPpos _ _ _ hrange, ?_⟩
  rw [outerFold_cast p _ (List.range pts.length) 0]
  rw [listRange_map_sum]
  simp only [Int.cast_zero, zero_add]
  refine Finset.sum_congr rfl (fun i hi => ?_)
  have hilen : i < pts.length := Finset.mem_range.mp hi
  -- name the two inner folds
  set num := (List.range pts.length).foldl
      (fun acc j => if i = j then acc else (acc * (x - (pts.getD j (0, 0)).1)) % ((p : Nat) : Int)) 1 with hnum
  set den := (List.range pts.length).foldl
      (fun acc j => if i = j then acc
        else (acc * ((pts.getD i (0, 0)).1 - (pts.getD j (0, 0)).1)) % ((p : Nat) : Int)) 1 with hden
  have hden_nonneg : 0 ≤ den := innerFold_nonneg _ hPz i _ _ 1 zero_le_one
  have hnum_cast : ((num : Int) : ZMod p)
      = ∏ j in (Finset.range pts.length).erase i,
          ((x : ZMod p) - ((pts.getD j (0, 0)).1 : ZMod p)) := by
    rw [hnum, innerFold_cast p i _ (List.range pts.length) 1, listRange_filter_map_prod]
    simp [Int.cast_sub]
  have hden_cast : ((den : Int) : ZMod p)
      = ∏ j in (Finset.range pts.length).erase i,
          (((pts.getD i (0, 0)).1 : ZMod p) - ((pts.getD j (0, 0)).1 : ZMod p)) := by
    rw [hden, innerFold_cast p i _ (List.range pts.length) 1, listRange_filter_map_prod]
    simp [Int.cast_sub]
  have hden_ne : ((den : Int) : ZMod p) ≠ 0 := by
    rw [hden_cast]
    refine Finset.prod_ne_zero_iff.mpr (fun j hj => ?_)
    have hji : j ≠ i := Finset.ne_of_mem_erase hj
    have hjlen : j < pts.length := Finset.mem_range.mp (Finset.mem_of_mem_erase hj)
    exact sub_ne_zero_of_ne (hdist i j hilen hjlen (Ne.symm hji))
  have hinv_cast : (((powMod den.toNat (p - 2) p : Nat) : Int) : ZMod p)
      = (∏ j in (Finset.range pts.length).erase i,
          (((pts.getD i (0, 0)).1 : ZMod p) - ((pts.getD j (0, 0)).1 : ZMod p)))⁻¹ := by
    rw [Int.cast_natCast, powMod_cast_zmod p hp0]
    have htn : ((den.toNat : Nat) : ZMod p) = ((den : Int) : ZMod p) := by
      rw [← Int.cast_natCast, Int.toNat_of_nonneg hden_nonneg]
    rw [htn, pow_totient_sub_one_inv hden_ne, hden_cast]
  rw [Int.cast_mul, ZMod.intCast_mod, Int.cast_mul, hnum_cast, hinv_cast]

/-- `ZMod` reading of `_evaluate_polynomial`: the fold computes
`∑ cᵢ xⁱ` in the field. -/
theorem evaluatePolynomial_cast (p : Nat) [NeZero p] (hp : 0 < p)
    (c : List Nat) (x : Nat) :
    ((evaluatePolynomial c x p : Nat) : ZMod p)
      = ∑ i in Finset.range c.length, (c.getD i 0 : ZMod p) * (x : ZMod p) ^ i := by
  simp only [evaluatePolynomial]
  rw [natFold_cast p _ (List.range c.length) 0, listRange_map_sum]
  simp only [Nat.cast_zero, zero_add]
  refine Finset.sum_congr rfl (fun i _ => ?_)
  rw [Nat.cast_mul, powMod_cast_zmod p hp]

theorem evaluatePolynomial_lt (p : Nat) (hp : 0 < p) (c : List Nat) (x : Nat)
    (hc : c ≠ []) : evaluatePolynomial c x p < p := by
  simp only [evaluatePolynomial]
  refine natFold_lt p hp _ _ 0 ?_
  have : c.length ≠ 0 := fun h => hc (List.eq_nil_of_length_eq_zero h)
  simpa [List.range_eq_nil]

/-- Shorthand used in the statements below: the polynomial over `ZMod p`
given by the coefficient list `c` (a proof-side object only). -/
theorem coeffPoly_eval (p : Nat) (c : List Nat) (z : ZMod p) :
    (∑ i in Finset.range c.length,
      Polynomial.C ((c.getD i 0 : Nat) : ZMod p) * Polynomial.X ^ i).eval z
      = ∑ i in Finset.range c.length, (c.getD i 0 : ZMod p) * z ^ i := by
  rw [Polynomial.eval_finset_sum]
  refine Finset.sum_congr rfl (fun i _ => ?_)
  rw [Polynomial.eval_mul, Polynomial.eval_C, Polynomial.eval_pow, Polynomial.eval_X]

theorem coeffPoly_degree_lt (p : Nat) (c : List Nat) :
    (∑ i in Finset.range c.length,
      Polynomial.C ((c.getD i 0 : Nat) : ZMod p) * Polynomial.X ^ i).degree
      < (c.length : WithBot Nat) := by
  refine lt_of_le_of_lt (Polynomial.degree_sum_le _ _) ?_
  rw [Finset.sup_lt_iff (by exact WithBot.bot_lt_coe _)]
  intro i hi
  refine lt_of_le_of_lt (Polynomial.degree_C_mul_X_pow_le i _) ?_
  exact_mod_cast Finset.mem_range.mp hi

theorem coeffPoly_eval_zero (p : Nat) (c : List Nat) (hc : c ≠ []) :
    (∑ i in Finset.range c.length,
      Polynomial.C ((c.getD i 0 : Nat) : ZMod p) * Polynomial.X ^ i).eval 0
      = (c.getD 0 0 : ZMod p) := by
  rw [coeffPoly_eval]
  have hlen : 0 < c.length := List.length_pos.mpr hc
  rw [Finset.sum_eq_single 0]
  · simp
  · intro i _ hne
    simp [zero_pow hne]
  · intro h
    exact absurd (Finset.mem_range.mpr hlen) h

theorem zmod_natCast_ne (p a b : Nat) (ha1 : 1 ≤ a) (hap : a ≤ p)
    (hb1 : 1 ≤ b) (hbp : b ≤ p) (hab : a ≠ b) : (a : ZMod p) ≠ (b : ZMod p) := by
  have hp : 0 < p := by omega
  intro h
  have hmod : a % p = b % p := (ZMod.natCast_eq_natCast_iff _ _ _).mp h
  rcases Nat.lt_or_ge a p with halt | hage
  · have h1 : a % p = a := Nat.mod_eq_of_lt halt
    rcases Nat.lt_or_ge b p with hblt | hbge
    · have h2 : b % p = b := Nat.mod_eq_of_lt hblt
      omega
    · have hbp2 : b = p := by omega
      subst hbp2
      rw [Nat.mod_self] at hmod
      omega
  · have hap2 : a = p := by omega
    subst hap2
    rw [Nat.mod_self] at hmod
    rcases Nat.lt_or_ge b a with hblt | hbge
    · have h2 : b % a = b := Nat.mod_eq_of_lt hblt
      omega
    · omega

theorem splitSecret_mem {d n : Nat} {coeffs : List Nat} {q : Nat × Nat}
    (h : q ∈ splitSecret d coeffs n) :
    1 ≤ q.1 ∧ q.1 ≤ n ∧ q.2 = evaluatePolynomial (d :: coeffs) q.1 shamirPrime := by
  simp only [splitSecret, List.mem_map, List.mem_range] at h
  obtain ⟨k, hk, hq⟩ := h
  subst hq
  refine ⟨by simp, by simpa using hk, by simp⟩

/-- Core round-trip: reconstruction from any `t` pairwise-distinct shares of
`splitSecret` returns the shared value, provided that value fits in the
field. -/
theorem shamirRoundtrip (d : Nat) (coeffs : List Nat) (t n : Nat)
    (pts : List (Nat × Nat))
    (hd : d < shamirPrime) (ht : 1 ≤ t) (hcl : coeffs.length = t - 1)
    (hn : n ≤ shamirPrime)
    (hsub : pts ⊆ splitSecret d coeffs n)
    (hlen : pts.length = t)
    (hnodup : (pts.map Prod.fst).Nodup) :
    reconstructSecret pts t = Except.ok d := by
  haveI hF : Fact (Nat.Prime shamirPrime) := ⟨shamirPrime_prime⟩
  set p := shamirPrime with hpdef
  haveI : NeZero p := ⟨hF.out.ne_zero⟩
  have hp0 : 0 < p := hF.out.pos
  set c : List Nat := d :: coeffs with hc
  have hclen : c.length = t := by simp [hc]; omega
  have hne : pts ≠ [] := by
    intro h
    rw [h] at hlen
    simp at hlen
    omega
  -- the shares' coordinates
  have hmem : ∀ j, j < pts.length →
      1 ≤ (pts.getD j (0, 0)).1 ∧ (pts.getD j (0, 0)).1 ≤ n ∧
      (pts.getD j (0, 0)).2 = evaluatePolynomial c (pts.getD j (0, 0)).1 p := by
    intro j hj
    rw [List.getD_eq_getElem _ _ hj]
    exact splitSecret_mem (hsub (pts.getElem_mem hj))
  have hxne : ∀ i j, i < pts.length → j < pts.length → i ≠ j →
      (pts.getD i (0, 0)).1 ≠ (pts.getD j (0, 0)).1 := by
    intro i j hi hj hij
    have hmaplen : (pts.map Prod.fst).length = pts.length := List.length_map _ _
    have h1 : getElem (pts.map Prod.fst) i (by omega) = (pts.getD i (0, 0)).1 := by
      rw [List.getElem_map, List.getD_eq_getElem _ _ hi]
    have h2 : getElem (pts.map Prod.fst) j (by omega) = (pts.getD j (0, 0)).1 := by
      rw [List.getElem_map, List.getD_eq_getElem _ _ hj]
    intro hcontra
    have hinj := @List.Nodup.getElem_inj_iff _ (pts.map Prod.fst) hnodup i (by omega) j (by omega)
    rw [h1, h2] at hinj
    exact hij (hinj.mp hcontra)
  have hdist : ∀ i j, i < pts.length → j < pts.length → i ≠ j →
      (((pts.getD i (0, 0)).1 : ZMod p) ≠ ((pts.getD j (0, 0)).1 : ZMod p)) := by
    intro i j hi hj hij
    obtain ⟨hi1, hin, _⟩ := hmem i hi
    obtain ⟨hj1, hjn, _⟩ := hmem j hj
    exact zmod_natCast_ne p _ _ hi1 (le_trans hin hn) hj1 (le_trans hjn hn)
      (hxne i j hi hj hij)
  -- unfold reconstruction: the guard is false and `take t` is the whole list
  rw [reconstructSecret, if_neg (by omega : ¬ pts.length < t)]
  have htake : pts.take t = pts := by rw [← hlen]; exact List.take_length pts
  rw [htake]
  set ipts := pts.map (fun s => ((s.1 : Int), (s.2 : Int))) with hipts
  have hglen : ipts.length = pts.length := List.length_map _ _
  have hg : ∀ j, ipts.getD j (0, 0)
      = (((pts.getD j (0, 0)).1 : Int), ((pts.getD j (0, 0)).2 : Int)) := by
    intro j
    have h0 : ((0, 0) : Int × Int)
        = ((fun s : Nat × Nat => ((s.1 : Int), (s.2 : Int))) (0, 0)) := by norm_num
    rw [hipts, h0, List.getD_map]
  have hne2 : ipts ≠ [] := by
    simpa [hipts] using hne
  obtain ⟨hnn, hlt, hcast⟩ := lagrangeInterpolation_spec p ipts 0 hne2 (by
    intro i j hi hj hij
    rw [hg i, hg j]
    simp only [Int.cast_natCast]
    exact hdist i j (by omega) (by omega) hij)
  set L := pts.length with hLdef
  set v : Nat → ZMod p := fun j => ((pts.getD j (0, 0)).1 : ZMod p) with hv
  set r' : Nat → ZMod p := fun j => ((pts.getD j (0, 0)).2 : ZMod p) with hr'
  have hcast2 : ((lagrangeInterpolation ipts 0 p : Int) : ZMod p)
      = ∑ i in Finset.range L, r' i *
          ((∏ j in (Finset.range L).erase i, ((0 : ZMod p) - v j)) *
           (∏ j in (Finset.range L).erase i, (v i - v j))⁻¹) := by
    rw [hcast]
    rw [hglen]
    refine Finset.sum_congr rfl (fun i _ => ?_)
    simp only [hg, hv, hr', Int.cast_natCast, Int.cast_zero]
  -- identify the sum with the evaluation of the Lagrange interpolant at 0
  have hinj : Set.InjOn v ((Finset.range L : Finset Nat) : Set Nat) := by
    intro a ha b hb hab
    by_contra hne3
    exact hdist a b (Finset.mem_range.mp (Finset.mem_coe.mp ha))
      (Finset.mem_range.mp (Finset.mem_coe.mp hb)) hne3 hab
  have hbasis : ∀ i ∈ Finset.range L, (Lagrange.basis (Finset.range L) v i).eval 0
      = (∏ j in (Finset.range L).erase i, ((0 : ZMod p) - v j)) *
        (∏ j in (Finset.range L).erase i, (v i - v j))⁻¹ := by
    intro i _
    rw [Lagrange.basis, Polynomial.eval_prod]
    have hstep : ∀ j ∈ (Finset.range L).erase i,
        (Lagrange.basisDivisor (v i) (v j)).eval 0
          = (v i - v j)⁻¹ * ((0 : ZMod p) - v j) := by
      intro j _
      rw [Lagrange.basisDivisor]
      simp
    rw [Finset.prod_congr rfl hstep, Finset.prod_mul_distrib, ← Finset.prod_inv_distrib]
    rw [mul_comm, Finset.prod_inv_distrib]
  have hinterp : (Lagrange.interpolate (Finset.range L) v r').eval 0
      = ∑ i in Finset.range L, r' i *
          ((∏ j in (Finset.range L).erase i, ((0 : ZMod p) - v j)) *
           (∏ j in (Finset.range L).erase i, (v i - v j))⁻¹) := by
    rw [Lagrange.interpolate_apply, Polynomial.eval_finset_sum]
    refine Finset.sum_congr rfl (fun i hi => ?_)
    rw [Polynomial.eval_mul, Polynomial.eval_C, hbasis i hi]
  -- the interpolant of the share values is the sharing polynomial itself
  have hr'f : ∀ i ∈ Finset.range L, r' i
      = (∑ k in Finset.range c.length,
          Polynomial.C ((c.getD k 0 : Nat) : ZMod p) * Polynomial.X ^ k).eval (v i) := by
    intro i hi
    obtain ⟨_, _, hy⟩ := hmem i (Finset.mem_range.mp hi)
    have hri : r' i = ((pts.getD i (0, 0)).2 : ZMod p) := rfl
    rw [hri, hy, evaluatePolynomial_cast p hp0, coeffPoly_eval]
  have hdeg : (∑ k in Finset.range c.length,
      Polynomial.C ((c.getD k 0 : Nat) : ZMod p) * Polynomial.X ^ k).degree
      < ((Finset.range L).card : WithBot Nat) := by
    rw [Finset.card_range]
    refine lt_of_lt_of_le (coeffPoly_degree_lt p c) ?_
    have hcL : c.length = L := by omega
    exact le_of_eq (by exact_mod_cast hcL)
  have hfeq := Lagrange.eq_interpolate hinj hdeg
  have hsame : Lagrange.interpolate (Finset.range L) v r'
      = Lagrange.interpolate (Finset.range L) v
        (fun i => (∑ k in Finset.range c.length,
          Polynomial.C ((c.getD k 0 : Nat) : ZMod p) * Polynomial.X ^ k).eval (v i)) :=
    Lagrange.interpolate_eq_of_values_eq_on _ _ hr'f
  have hvalue : ((lagrangeInterpolation ipts 0 p : Int) : ZMod p) = (d : ZMod p) := by
    rw [hcast2, ← hinterp, hsame, ← hfeq, coeffPoly_eval_zero p c (by simp [hc])]
    simp [hc]
  -- back to natural numbers
  have htn : (((lagrangeInterpolation ipts 0 p).toNat : Nat) : ZMod p) = (d : ZMod p) := by
    rw [← Int.cast_natCast, Int.toNat_of_nonneg hnn, hvalue]
  have hlt2 : (lagrangeInterpolation ipts 0 p).toNat < p := by omega
  have hfin : (lagrangeInterpolation ipts 0 p).toNat = d := by
    have hval := congrArg ZMod.val htn
    rwa [ZMod.val_cast_of_lt hlt2, ZMod.val_cast_of_lt hd] at hval
  rw [hfin]

/-- C5 (amended): for every secret whose SHA-256 digest, read as a big-endian
integer, is below the field prime `shamirPrime` (all except a `2⁻³²` sliver of
digest space), every size-`t` collection of distinct shares out of the `n`
produced by `split_secret` reconstructs exactly that digest, and any call with
fewer than `threshold` shares fails with InsufficientShares. -/
theorem claim_C5_shamir_roundtrip :
    (∀ (d : Nat) (coeffs : List Nat) (t n : Nat) (pts : List (Nat × Nat)),
      d < shamirPrime → 1 ≤ t → coeffs.length = t - 1 → n ≤ shamirPrime →
      pts ⊆ splitSecret d coeffs n → pts.length = t → (pts.map Prod.fst).Nodup →
      reconstructSecret pts t = Except.ok d)
    ∧ (∀ (shares : List (Nat × Nat)) (t : Nat), shares.length < t →
      reconstructSecret shares t = Except.error
        ("Insufficient shares: " ++ toString shares.length ++ " < " ++ toString t)) := by
  refine ⟨fun d coeffs t n pts hd ht hcl hn hsub hlen hnodup =>
    shamirRoundtrip d coeffs t n pts hd ht hcl hn hsub hlen hnodup,
    fun shares t hlt => ?_⟩
  rw [reconstructSecret, if_pos hlt]

theorem claim_C5_shamir_roundtrip_witness :
    ((5 : Nat) < shamirPrime ∧ (1 : Nat) ≤ 2 ∧ ([7] : List Nat).length = 2 - 1 ∧
      (3 : Nat) ≤ shamirPrime ∧
      [(1, 12), (3, 26)] ⊆ splitSecret 5 [7] 3 ∧
      ([((1 : Nat), (12 : Nat)), (3, 26)]).length = 2 ∧
      (([((1 : Nat), (12 : Nat)), (3, 26)]).map Prod.fst).Nodup ∧
      reconstructSecret [(1, 12), (3, 26)] 2 = Except.ok 5)
    ∧ (([((1 : Nat), (2 : Nat))]).length < 2 ∧
      reconstructSecret [(1, 2)] 2 = Except.error "Insufficient shares: 1 < 2") := by
  refine ⟨⟨by decide, by decide, by decide, by decide, by decide, by decide, by decide, ?_⟩,
    by decide, ?_⟩
  · exact claim_C5_shamir_roundtrip.1 5 [7] 2 3 [(1, 12), (3, 26)]
      (by decide) (by decide) (by decide) (by decide) (by decide) (by decide) (by decide)
  · exact claim_C5_shamir_roundtrip.2 [(1, 2)] 2 (by decide)

/-- C5 counterexample: for the digest value `2^256 - 1` (which exceeds the
field prime), sharing with `t = 2, n = 2` and reconstructing from both shares
returns the digest reduced mod the prime, not the digest itself. -/
theorem claim_C5_counterexample :
    reconstructSecret (splitSecret (2 ^ 256 - 1) [0] 2) 2
      = Except.ok ((2 ^ 256 - 1) % shamirPrime)
    ∧ (2 ^ 256 - 1) % shamirPrime ≠ 2 ^ 256 - 1 := by
  constructor
  · rfl
  · decide

/-- C9 (amended): `reconstruct_secret` fails with InsufficientShares (the
message interpolates the counts) when fewer than `threshold` are supplied, and
with at least `threshold` shares it never fails: duplicated x-coordinates are
NOT rejected (no DuplicatePoint error exists in the code). -/
theorem claim_C9_reconstruct_errors :
    (∀ (shares : List (Nat × Nat)) (t : Nat), shares.length < t →
      reconstructSecret shares t = Except.error
        ("Insufficient shares: " ++ toString shares.length ++ " < " ++ toString t))
    ∧ (∀ (shares : List (Nat × Nat)) (t : Nat), t ≤ shares.length →
      (reconstructSecret shares t).isOk = true) := by
  constructor
  · intro shares t hlt
    rw [reconstructSecret, if_pos hlt]
  · intro shares t hge
    rw [reconstructSecret, if_neg (by omega)]
    rfl

theorem claim_C9_reconstruct_errors_witness :
    (([((1 : Nat), (2 : Nat))]).length < 3 ∧
      reconstructSecret [(1, 2)] 3 = Except.error "Insufficient shares: 1 < 3")
    ∧ ((3 : Nat) ≤ ([((1 : Nat), (5 : Nat)), (2, 7), (3, 9)]).length ∧
      (reconstructSecret [(1, 5), (2, 7), (3, 9)] 3).isOk = true) := by
  refine ⟨⟨by decide, claim_C9_reconstruct_errors.1 [(1, 2)] 3 (by decide)⟩,
    by decide, claim_C9_reconstruct_errors.2 [(1, 5), (2, 7), (3, 9)] 3 (by decide)⟩

/-- C9 counterexample: two shares with the same x-coordinate do not produce a
DuplicatePoint failure; the call succeeds (returning a garbage value, here 7).
-/
theorem claim_C9_counterexample :
    reconstructSecret [(1, 5), (1, 5), (2, 7)] 3 = Except.ok 7 := by
  rfl

/-- C10: `combine_partial_decryptions` never reads the partial decryptions:
any two lists of at least `threshold` entries give the same output, namely the
full decryption of the aggregate. -/
theorem claim_C10_combine_ignores_partials :
    ∀ {α β : Type} (p q : Nat) (agg : List Nat) (l1 : List α) (l2 : List β)
      (t : Nat), t ≤ l1.length → t ≤ l2.length →
      combinePartialDecryptions p q agg l1 t = combinePartialDecryptions p q agg l2 t
      ∧ combinePartialDecryptions p q agg l1 t = Except.ok (decryptTally p q agg) := by
  intro _ _ p q agg l1 l2 t h1 h2
  rw [combinePartialDecryptions, if_neg (by omega), combinePartialDecryptions,
    if_neg (by omega)]
  exact ⟨rfl, rfl⟩

theorem claim_C10_combine_ignores_partials_witness :
    ((2 : Nat) ≤ (["a", "b"] : List String).length ∧
     (2 : Nat) ≤ ([(1 : Nat), 2, 3]).length) ∧
    (combinePartialDecryptions 3 5 [167, 137] ["a", "b"] 2
       = combinePartialDecryptions 3 5 [167, 137] [(1 : Nat), 2, 3] 2
     ∧ combinePartialDecryptions 3 5 [167, 137] ["a", "b"] 2
       = Except.ok (decryptTally 3 5 [167, 137])) :=
  ⟨⟨by decide, by decide⟩,
   claim_C10_combine_ignores_partials 3 5 [167, 137] ["a", "b"] [(1 : Nat), 2, 3] 2
     (by decide) (by decide)⟩

/-! ### Paillier correctness -/

theorem invMod_mul_cast (a n : Nat) (hco : Nat.Coprime a n) [NeZero n] :
    ((invMod a n : Nat) : ZMod n) * (a : ZMod n) = 1 := by
  have hn : 0 < n := Nat.pos_of_ne_zero (NeZero.ne n)
  have hphi : 0 < Nat.totient n := Nat.totient_pos.mpr hn
  have h1 : ((a ^ Nat.totient n : Nat) : ZMod n) = ((1 : Nat) : ZMod n) :=
    (ZMod.natCast_eq_natCast_iff _ _ _).mpr (Nat.ModEq.pow_totient hco)
  rw [invMod, powMod_cast_zmod n hn]
  calc (a : ZMod n) ^ (Nat.totient n - 1) * (a : ZMod n)
      = (a : ZMod n) ^ (Nat.totient n - 1 + 1) := by rw [pow_succ]
    _ = (a : ZMod n) ^ Nat.totient n := by congr 1; omega
    _ = 1 := by push_cast at h1; simpa using h1

/-- `(n+1)^k = 1 + k·n` in `ZMod (n²)`. -/
theorem g_pow_eq (n k : Nat) :
    ((n + 1 : Nat) : ZMod (n ^ 2)) ^ k = 1 + (k : ZMod (n ^ 2)) * (n : ZMod (n ^ 2)) := by
  have hnn : (n : ZMod (n ^ 2)) * (n : ZMod (n ^ 2)) = 0 := by
    have h := ZMod.natCast_self (n ^ 2)
    rw [Nat.cast_pow] at h
    calc (n : ZMod (n ^ 2)) * (n : ZMod (n ^ 2)) = (n : ZMod (n ^ 2)) ^ 2 := by ring
      _ = 0 := h
  induction k with
  | zero => simp
  | succ k ih =>
    have hstep : ((n + 1 : Nat) : ZMod (n ^ 2)) ^ (k + 1)
        = ((n + 1 : Nat) : ZMod (n ^ 2)) ^ k * ((n + 1 : Nat) : ZMod (n ^ 2)) :=
      pow_succ _ _
    rw [hstep, ih]
    push_cast
    calc (1 + (k : ZMod (n ^ 2)) * n) * (n + 1)
        = 1 + ((k : ZMod (n ^ 2)) + 1) * n + (k : ZMod (n ^ 2)) * (n * n) := by ring
      _ = 1 + ((k : ZMod (n ^ 2)) + 1) * n := by rw [hnn, mul_zero, add_zero]

/-- Euler step: for `r` coprime to `n = p·q`, `r^(n·λ) ≡ 1 mod n²`. -/
theorem r_pow_n_lam (p q : Nat) (hp : p.Prime) (hq : q.Prime) (hpq : p ≠ q)
    (r : Nat) (hr : Nat.Coprime r (p * q)) :
    (r : ZMod ((p * q) ^ 2)) ^ (p * q * paillierLam p q) = 1 := by
  have hrp : Nat.Coprime r p := Nat.Coprime.coprime_dvd_right (dvd_mul_right p q) hr
  have hrq : Nat.Coprime r q := Nat.Coprime.coprime_dvd_right (dvd_mul_left q p) hr
  have hmod : ∀ (u : Nat), u.Prime → Nat.Coprime r u →
      (u * (u - 1)) ∣ (p * q * paillierLam p q) →
      r ^ (p * q * paillierLam p q) ≡ 1 [MOD u ^ 2] := by
    intro u hu hru hdvd
    obtain ⟨e, he⟩ := hdvd
    have htot : Nat.totient (u ^ 2) = u * (u - 1) := by
      rw [Nat.totient_prime_pow hu (by omega)]
      ring_nf
    have heuler : r ^ Nat.totient (u ^ 2) ≡ 1 [MOD u ^ 2] :=
      Nat.ModEq.pow_totient (Nat.Coprime.pow_right 2 hru)
    rw [htot] at heuler
    calc r ^ (p * q * paillierLam p q) = (r ^ (u * (u - 1))) ^ e := by
          rw [← pow_mul, ← he]
      _ ≡ 1 ^ e [MOD u ^ 2] := Nat.ModEq.pow e heuler
      _ = 1 := one_pow e
  have hdp : (p * (p - 1)) ∣ (p * q * paillierLam p q) := by
    have h1 : (p - 1) ∣ paillierLam p q := Nat.dvd_lcm_left _ _
    obtain ⟨e, he⟩ := h1
    exact ⟨q * e, by rw [he]; ring⟩
  have hdq : (q * (q - 1)) ∣ (p * q * paillierLam p q) := by
    have h1 : (q - 1) ∣ paillierLam p q := Nat.dvd_lcm_right _ _
    obtain ⟨e, he⟩ := h1
    exact ⟨p * e, by rw [he]; ring⟩
  have hco : Nat.Coprime (p ^ 2) (q ^ 2) :=
    Nat.Coprime.pow _ _ ((Nat.coprime_primes hp hq).mpr hpq)
  have hcomb := (Nat.modEq_and_modEq_iff_modEq_mul hco).mp
    ⟨hmod p hp hrp hdp, hmod q hq hrq hdq⟩
  have hsq : p ^ 2 * q ^ 2 = (p * q) ^ 2 := by ring
  rw [hsq] at hcomb
  have := (ZMod.natCast_eq_natCast_iff _ _ _).mpr hcomb
  rwa [Nat.cast_pow, Nat.cast_one] at this

/-- Auxiliary exponent identity used below. -/
theorem pow_mul_pow_pow {K : Type} [CommMonoid K] (g r : K) (M n lam : Nat) :
    (g ^ M * r ^ n) ^ lam = g ^ (M * lam) * r ^ (n * lam) := by
  rw [mul_pow, pow_mul, pow_mul]

/-- Core Paillier decryption correctness: decrypting `g^M · R^n mod n²`
returns `M` whenever `M < n` and `R` is coprime to `n = p·q`. -/
theorem paillierDecrypt_eq (p q : Nat) (hp : p.Prime) (hq : q.Prime) (hpq : p ≠ q)
    (hco : Nat.Coprime (paillierLam p q) (p * q))
    (M R c : Nat) (hR : Nat.Coprime R (p * q)) (hM : M < p * q)
    (hc : (c : ZMod ((p * q) ^ 2))
      = ((p * q + 1 : Nat) : ZMod ((p * q) ^ 2)) ^ M
          * (R : ZMod ((p * q) ^ 2)) ^ (p * q)) :
    paillierDecrypt p q c = M := by
  have hn2 : 2 ≤ p * q := by
    calc 2 = 2 * 1 := by omega
      _ ≤ p * q := Nat.mul_le_mul hp.two_le (by have := hq.two_le; omega)
  haveI : NeZero (p * q) := ⟨by omega⟩
  haveI : NeZero ((p * q) ^ 2) := ⟨by positivity⟩
  have hnsq : 0 < (p * q) ^ 2 := by positivity
  have hvlt : 1 + (M * paillierLam p q % (p * q)) * (p * q) < (p * q) ^ 2 := by
    have h1 : M * paillierLam p q % (p * q) ≤ p * q - 1 := by
      have := Nat.mod_lt (M * paillierLam p q) (show 0 < p * q by omega)
      omega
    have h2 : 1 + (M * paillierLam p q % (p * q)) * (p * q) ≤ 1 + (p * q - 1) * (p * q) :=
      by have := Nat.mul_le_mul_right (p * q) h1; omega
    have h3 : 1 + (p * q - 1) * (p * q) < (p * q) ^ 2 := by
      have hexp : (p * q) ^ 2 = (p * q) * (p * q) := by ring
      have hstep : (p * q - 1) * (p * q) + (p * q) = (p * q) * (p * q) := by
        have h4 : (p * q - 1) * (p * q) + (p * q) = ((p * q - 1) + 1) * (p * q) := by ring
        rw [h4]
        congr 1
        omega
      omega
    omega
  have hnn2 : ((p * q : Nat) : ZMod ((p * q) ^ 2)) * ((p * q : Nat) : ZMod ((p * q) ^ 2)) = 0 := by
    have h := ZMod.natCast_self ((p * q) ^ 2)
    rw [Nat.cast_pow] at h
    calc ((p * q : Nat) : ZMod ((p * q) ^ 2)) * ((p * q : Nat) : ZMod ((p * q) ^ 2))
        = ((p * q : Nat) : ZMod ((p * q) ^ 2)) ^ 2 := by ring
      _ = 0 := h
  have hcoef : ((M * paillierLam p q : Nat) : ZMod ((p * q) ^ 2))
        * ((p * q : Nat) : ZMod ((p * q) ^ 2))
      = ((M * paillierLam p q % (p * q) : Nat) : ZMod ((p * q) ^ 2))
        * ((p * q : Nat) : ZMod ((p * q) ^ 2)) := by
    have hsplit : M * paillierLam p q
        = (p * q) * (M * paillierLam p q / (p * q)) + M * paillierLam p q % (p * q) :=
      (Nat.div_add_mod _ _).symm
    calc ((M * paillierLam p q : Nat) : ZMod ((p * q) ^ 2)) * ((p * q : Nat) : ZMod ((p * q) ^ 2))
        = (((p * q) * (M * paillierLam p q / (p * q)) + M * paillierLam p q % (p * q) : Nat) :
            ZMod ((p * q) ^ 2)) * ((p * q : Nat) : ZMod ((p * q) ^ 2)) := by rw [← hsplit]
      _ = ((M * paillierLam p q / (p * q) : Nat) : ZMod ((p * q) ^ 2))
            * (((p * q : Nat) : ZMod ((p * q) ^ 2)) * ((p * q : Nat) : ZMod ((p * q) ^ 2)))
          + ((M * paillierLam p q % (p * q) : Nat) : ZMod ((p * q) ^ 2))
            * ((p * q : Nat) : ZMod ((p * q) ^ 2)) := by push_cast; ring
      _ = ((M * paillierLam p q % (p * q) : Nat) : ZMod ((p * q) ^ 2))
            * ((p * q : Nat) : ZMod ((p * q) ^ 2)) := by rw [hnn2, mul_zero, zero_add]
  have hcv : (c : ZMod ((p * q) ^ 2)) ^ paillierLam p q
      = ((1 + (M * paillierLam p q % (p * q)) * (p * q) : Nat) : ZMod ((p * q) ^ 2)) := by
    rw [hc, pow_mul_pow_pow ((p * q + 1 : Nat) : ZMod ((p * q) ^ 2))
      ((R : Nat) : ZMod ((p * q) ^ 2)) M (p * q) (paillierLam p q)]
    rw [r_pow_n_lam p q hp hq hpq R hR, mul_one, g_pow_eq (p * q) (M * paillierLam p q)]
    rw [hcoef]
    push_cast
    ring
  have hpowmod : powMod c (paillierLam p q) ((p * q) ^ 2)
      = 1 + (M * paillierLam p q % (p * q)) * (p * q) := by
    rw [powMod_eq _ _ _ hnsq]
    have hmodeq : c ^ paillierLam p q
        ≡ 1 + (M * paillierLam p q % (p * q)) * (p * q) [MOD (p * q) ^ 2] := by
      apply (ZMod.natCast_eq_natCast_iff _ _ _).mp
      rw [Nat.cast_pow, hcv]
    calc c ^ paillierLam p q % (p * q) ^ 2
        = (1 + (M * paillierLam p q % (p * q)) * (p * q)) % (p * q) ^ 2 := hmodeq
      _ = 1 + (M * paillierLam p q % (p * q)) * (p * q) := Nat.mod_eq_of_lt hvlt
  have hL : paillierL (p * q) (1 + (M * paillierLam p q % (p * q)) * (p * q))
      = M * paillierLam p q % (p * q) := by
    have hsub : 1 + (M * paillierLam p q % (p * q)) * (p * q) - 1
        = (M * paillierLam p q % (p * q)) * (p * q) := by omega
    rw [paillierL, hsub, Nat.mul_div_cancel _ (show 0 < p * q by omega)]
  rw [paillierDecrypt, hpowmod, hL]
  have hcast : (((M * paillierLam p q % (p * q)) * invMod (paillierLam p q) (p * q) : Nat) :
      ZMod (p * q)) = (M : ZMod (p * q)) := by
    push_cast
    rw [ZMod.natCast_mod]
    push_cast
    calc (M : ZMod (p * q)) * ((paillierLam p q : Nat) : ZMod (p * q))
          * ((invMod (paillierLam p q) (p * q) : Nat) : ZMod (p * q))
        = (M : ZMod (p * q)) * (((invMod (paillierLam p q) (p * q) : Nat) : ZMod (p * q))
            * ((paillierLam p q : Nat) : ZMod (p * q))) := by ring
      _ = (M : ZMod (p * q)) * 1 := by rw [invMod_mul_cast (paillierLam p q) (p * q) hco]
      _ = (M : ZMod (p * q)) := mul_one _
  have hlt : ((M * paillierLam p q % (p * q)) * invMod (paillierLam p q) (p * q)) % (p * q)
      < p * q := Nat.mod_lt _ (by omega)
  have hfin := congrArg ZMod.val
    ((ZMod.natCast_mod ((M * paillierLam p q % (p * q)) * invMod (paillierLam p q) (p * q))
      (p * q)).trans hcast)
  rwa [ZMod.val_cast_of_lt hlt, ZMod.val_cast_of_lt hM] at hfin

theorem natCast_list_prod {R : Type} [CommSemiring R] (l : List Nat) :
    ((l.prod : Nat) : R) = (l.map (fun x => ((x : Nat) : R))).prod := by
  induction l with
  | nil => simp
  | cons x t ih => simp [ih]

theorem coprime_list_prod (n : Nat) (l : List Nat)
    (h : ∀ r ∈ l, Nat.Coprime r n) : Nat.Coprime l.prod n := by
  induction l with
  | nil => rw [List.prod_nil]; exact Nat.coprime_one_left n
  | cons x t ih =>
    rw [List.prod_cons]
    exact Nat.Coprime.mul (h x (List.mem_cons_self x t))
      (ih (fun r hr => h r (List.mem_cons_of_mem _ hr)))

/-- Product of `g^mᵢ · rᵢ^e` factors collapses to `g^Σmᵢ · (Πrᵢ)^e`. -/
theorem prod_enc {K : Type} [CommMonoid K] (g : K) (e : Nat) (l : List (Nat × K)) :
    (l.map (fun t => g ^ t.1 * t.2 ^ e)).prod
      = g ^ (l.map Prod.fst).sum * ((l.map Prod.snd).prod) ^ e := by
  induction l with
  | nil => simp
  | cons x t ih =>
    simp only [List.map_cons, List.prod_cons, List.sum_cons, ih, pow_add, mul_pow]
    exact mul_mul_mul_comm _ _ _ _

theorem sum_indicator_count (j : Nat) (ballots : List Nat)
    (hb : ∀ b ∈ ballots, 1 ≤ b) :
    (ballots.map (fun b => if j = b - 1 then 1 else 0)).sum = ballots.count (j + 1) := by
  induction ballots with
  | nil => simp
  | cons b t ih =>
    have hb1 : 1 ≤ b := hb b (List.mem_cons_self b t)
    have iht := ih (fun x hx => hb x (List.mem_cons_of_mem _ hx))
    simp only [List.map_cons, List.sum_cons, List.count_cons, iht]
    by_cases h : j = b - 1
    · have hbj : b = j + 1 := by omega
      subst hbj
      simp
      omega
    · have hbj : ¬ (b = j + 1) := by omega
      simp [h, hbj]

theorem zipWith_const_right {α β γ : Type} (f : α → γ) (l1 : List α) :
    ∀ (l2 : List β), l2.length = l1.length →
    List.zipWith (fun a _ => f a) l1 l2 = l1.map f := by
  induction l1 with
  | nil => intro l2 _; simp
  | cons a t ih =>
    intro l2 hl
    match l2 with
    | [] => simp at hl
    | b :: t2 =>
      simp only [List.zipWith_cons_cons, List.map_cons]
      rw [ih t2 (by simpa using hl)]

theorem aggFold_length (n : Nat) (rest : List (List Nat)) :
    ∀ v0 : List Nat, (∀ w ∈ rest, w.length = v0.length) →
    (rest.foldl (fun agg w => List.zipWith (paillierAdd n) agg w) v0).length
      = v0.length := by
  induction rest with
  | nil => intro v0 _; rfl
  | cons w t ih =>
    intro v0 hlen
    simp only [List.foldl_cons]
    have hw : w.length = v0.length := hlen w (List.mem_cons_self w t)
    have hz : (List.zipWith (paillierAdd n) v0 w).length = v0.length := by
      rw [List.length_zipWith]; omega
    rw [ih (List.zipWith (paillierAdd n) v0 w)
      (fun u hu => by rw [hz]; exact hlen u (List.mem_cons_of_mem _ hu)), hz]

theorem aggFold_getD_cast (n : Nat) (rest : List (List Nat)) :
    ∀ (v0 : List Nat), (∀ w ∈ rest, w.length = v0.length) → ∀ j, j < v0.length →
    (((rest.foldl (fun agg w => List.zipWith (paillierAdd n) agg w) v0).getD j 0 : Nat) :
        ZMod (n ^ 2))
      = ((v0.getD j 0 : Nat) : ZMod (n ^ 2))
        * (rest.map (fun w => ((w.getD j 0 : Nat) : ZMod (n ^ 2)))).prod := by
  induction rest with
  | nil => intro v0 _ j _; simp
  | cons w t ih =>
    intro v0 hlen j hj
    simp only [List.foldl_cons, List.map_cons, List.prod_cons]
    have hw : w.length = v0.length := hlen w (List.mem_cons_self w t)
    have hz : (List.zipWith (paillierAdd n) v0 w).length = v0.length := by
      rw [List.length_zipWith]; omega
    rw [ih (List.zipWith (paillierAdd n) v0 w)
      (fun u hu => by rw [hz]; exact hlen u (List.mem_cons_of_mem _ hu)) j (by omega)]
    have hcomp : (List.zipWith (paillierAdd n) v0 w).getD j 0
        = paillierAdd n (v0.getD j 0) (w.getD j 0) := by
      rw [List.getD_eq_getElem _ _ (by omega), List.getElem_zipWith,
        List.getD_eq_getElem _ _ hj, List.getD_eq_getElem _ _ (by omega)]
    rw [hcomp, paillierAdd, ZMod.natCast_mod, Nat.cast_mul]
    ring

theorem encryptVote_length (n : Nat) (rs : List Nat) (b k : Nat) :
    (encryptVote n rs b k).length = k := by
  simp [encryptVote]

theorem encryptVote_getD (n : Nat) (rs : List Nat) (b k j : Nat) (hj : j < k) :
    (encryptVote n rs b k).getD j 0
      = paillierEncrypt n (rs.getD j 1) (if j = b - 1 then 1 else 0) := by
  rw [List.getD_eq_getElem _ _ (by rw [encryptVote_length]; omega)]
  simp only [encryptVote, List.getElem_map, List.getElem_range]

theorem paillierEncrypt_cast (n r m : Nat) (hn : 0 < n ^ 2) :
    ((paillierEncrypt n r m : Nat) : ZMod (n ^ 2))
      = ((n + 1 : Nat) : ZMod (n ^ 2)) ^ m * ((r : Nat) : ZMod (n ^ 2)) ^ n := by
  rw [paillierEncrypt, ZMod.natCast_mod, Nat.cast_mul,
    powMod_cast_zmod _ hn, powMod_cast_zmod _ hn]

/-- C4: decrypting the homomorphic aggregate of one-hot encrypted ballots
yields the per-candidate tally of the plaintext ballots. -/
theorem claim_C4_homomorphic_tally
    (p q k : Nat) (ballots : List Nat) (rss : List (List Nat)) (agg : List Nat)
    (hp : p.Prime) (hq : q.Prime) (hpq : p ≠ q)
    (hco : Nat.Coprime (paillierLam p q) (p * q))
    (hm : ballots.length < p * q)
    (hlen : rss.length = ballots.length)
    (hrs : ∀ rs ∈ rss, ∀ r ∈ rs, Nat.Coprime r (p * q))
    (hb : ∀ b ∈ ballots, 1 ≤ b ∧ b ≤ k)
    (hne : ballots ≠ [])
    (hagg : aggregateVotes (p * q)
      (List.zipWith (fun b rs => encryptVote (p * q) rs b k) ballots rss)
      = Except.ok agg) :
    decryptTally p q agg = (List.range k).map (fun j => ballots.count (j + 1)) := by
  have hn2 : 2 ≤ p * q := by
    calc 2 = 2 * 1 := by omega
      _ ≤ p * q := Nat.mul_le_mul hp.two_le (by have := hq.two_le; omega)
  have hnsq : 0 < (p * q) ^ 2 := by positivity
  have hvlen : (List.zipWith (fun b rs => encryptVote (p * q) rs b k) ballots rss).length
      = ballots.length := by
    rw [List.length_zipWith]; omega
  obtain ⟨v0, rest, hcons⟩ : ∃ v0 rest,
      List.zipWith (fun b rs => encryptVote (p * q) rs b k) ballots rss = v0 :: rest := by
    cases hzw : List.zipWith (fun b rs => encryptVote (p * q) rs b k) ballots rss with
    | nil =>
      rw [hzw] at hvlen
      exact absurd (List.eq_nil_of_length_eq_zero hvlen.symm).symm
        (fun h => hne h.symm)
    | cons a t => exact ⟨a, t, rfl⟩
  rw [hcons] at hagg
  simp only [aggregateVotes, Except.ok.injEq] at hagg
  have hall : ∀ w ∈ (v0 :: rest), w.length = k := by
    rw [← hcons]
    intro w hw
    obtain ⟨i, hi, hwi⟩ := List.mem_iff_getElem.mp hw
    rw [← hwi]
    simp only [List.getElem_zipWith]
    exact encryptVote_length _ _ _ _
  have hv0 : v0.length = k := hall v0 (List.mem_cons_self _ _)
  have hrest : ∀ w ∈ rest, w.length = v0.length := fun w hw => by
    rw [hall w (List.mem_cons_of_mem _ hw), hv0]
  have hagglen : agg.length = k := by
    rw [← hagg, aggFold_length (p * q) rest v0 hrest, hv0]
  apply List.ext_getElem
  · simp only [decryptTally]
    rw [List.length_map, hagglen, List.length_map, List.length_range]
  · intro j hj1 hj2
    have hjk : j < k := by
      rwa [List.length_map, List.length_range] at hj2
    have hjagg : j < agg.length := by omega
    simp only [decryptTally]
    rw [List.getElem_map, List.getElem_map, List.getElem_range]
    -- the nonce product for component j
    apply paillierDecrypt_eq p q hp hq hpq hco (ballots.count (j + 1))
      ((List.zipWith (fun (_ : Nat) (rs : List Nat) => rs.getD j 1) ballots rss).prod)
      (getElem agg j hjagg)
    -- the nonce product is coprime to n
    · apply coprime_list_prod
      intro r hr
      obtain ⟨i, hi, hri⟩ := List.mem_iff_getElem.mp hr
      simp only [List.getElem_zipWith] at hri
      rcases Nat.lt_or_ge j ((getElem rss i (by
        rw [List.length_zipWith] at hi; omega) : List Nat).length) with hjlt | hjge
      · rw [← hri, List.getD_eq_getElem _ _ hjlt]
        exact hrs _ (List.getElem_mem _) _ (List.getElem_mem _)
      · rw [← hri, List.getD_eq_default _ _ hjge]
        exact Nat.coprime_one_left _
    -- the count is small enough
    · exact lt_of_le_of_lt (List.count_le_length _ _) hm
    -- the ciphertext component is g^count · R^n
    · have hgetD : getElem agg j hjagg = agg.getD j 0 := (List.getD_eq_getElem agg 0 hjagg).symm
      rw [hgetD]
      have hchain := aggFold_getD_cast (p * q) rest v0 hrest j (by omega)
      rw [hagg] at hchain
      rw [hchain]
      have hfold : ((v0.getD j 0 : Nat) : ZMod ((p * q) ^ 2))
            * (rest.map (fun w => ((w.getD j 0 : Nat) : ZMod ((p * q) ^ 2)))).prod
          = (((v0 :: rest).map (fun w => ((w.getD j 0 : Nat) : ZMod ((p * q) ^ 2)))).prod) := by
        rw [List.map_cons, List.prod_cons]
      rw [hfold, ← hcons]
      -- map over the zipped votes is the list of encrypted components
      have hmapeq : (List.zipWith (fun b rs => encryptVote (p * q) rs b k) ballots rss).map
            (fun w => ((w.getD j 0 : Nat) : ZMod ((p * q) ^ 2)))
          = (List.zipWith (fun b rs =>
              ((if j = b - 1 then (1 : Nat) else 0),
                ((rs.getD j 1 : Nat) : ZMod ((p * q) ^ 2)))) ballots rss).map
            (fun t => ((p * q + 1 : Nat) : ZMod ((p * q) ^ 2)) ^ t.1 * t.2 ^ (p * q)) := by
      -- both sides are maps over zipWith of the same length; compare pointwise
        apply List.ext_getElem
        · simp [List.length_zipWith]
        · intro i hi1 hi2
          simp only [List.getElem_map, List.getElem_zipWith]
          rw [encryptVote_getD _ _ _ _ _ hjk, paillierEncrypt_cast _ _ _ hnsq]
      rw [hmapeq, prod_enc]
      -- identify exponent sum with the ballot count
      have hfst : (List.zipWith (fun b rs =>
            ((if j = b - 1 then (1 : Nat) else 0),
              ((rs.getD j 1 : Nat) : ZMod ((p * q) ^ 2)))) ballots rss).map Prod.fst
          = ballots.map (fun b => if j = b - 1 then 1 else 0) := by
        rw [List.map_zipWith]
        exact zipWith_const_right (fun b => if j = b - 1 then (1 : Nat) else 0) ballots rss hlen
      have hsnd : (List.zipWith (fun b rs =>
            ((if j = b - 1 then (1 : Nat) else 0),
              ((rs.getD j 1 : Nat) : ZMod ((p * q) ^ 2)))) ballots rss).map Prod.snd
          = (List.zipWith (fun (_ : Nat) (rs : List Nat) => rs.getD j 1) ballots rss).map
              (fun x => ((x : Nat) : ZMod ((p * q) ^ 2))) := by
        rw [List.map_zipWith, List.map_zipWith]
      rw [hfst, hsnd, sum_indicator_count j ballots (fun b hbm => (hb b hbm).1),
        ← natCast_list_prod]

theorem claim_C4_homomorphic_tally_witness :
    (Nat.Prime 3 ∧ Nat.Prime 5 ∧ (3 : Nat) ≠ 5
      ∧ Nat.Coprime (paillierLam 3 5) (3 * 5)
      ∧ ([1, 2, 1] : List Nat).length < 3 * 5
      ∧ ([[2, 2], [2, 2], [2, 2]] : List (List Nat)).length = ([1, 2, 1] : List Nat).length
      ∧ (∀ rs ∈ ([[2, 2], [2, 2], [2, 2]] : List (List Nat)), ∀ r ∈ rs, Nat.Coprime r (3 * 5))
      ∧ (∀ b ∈ ([1, 2, 1] : List Nat), 1 ≤ b ∧ b ≤ 2)
      ∧ ([1, 2, 1] : List Nat) ≠ []
      ∧ aggregateVotes (3 * 5)
          (List.zipWith (fun b rs => encryptVote (3 * 5) rs b 2) [1, 2, 1] [[2, 2], [2, 2], [2, 2]])
          = Except.ok [167, 137])
    ∧ decryptTally 3 5 [167, 137]
        = (List.range 2).map (fun j => ([1, 2, 1] : List Nat).count (j + 1)) := by
  refine ⟨⟨prime_3, prime_5, by decide, by decide, by decide, by decide, by decide, by decide,
    by decide, by rfl⟩, ?_⟩
  exact claim_C4_homomorphic_tally 3 5 2 [1, 2, 1] [[2, 2], [2, 2], [2, 2]] [167, 137]
    prime_3 prime_5 (by decide) (by decide) (by decide) (by decide) (by decide) (by decide)
    (by decide) (by rfl)

/-- Success inversion for `partDecrypt`: what a successful call proves about
the input state and how it builds the output state. -/
theorem partDecrypt_ok {db db' : DBState} {eid tid : String} {resp : PartDecResp}
    (h : partDecrypt db eid tid = Except.ok (db', resp)) :
    ∃ session newSvcKey,
      findSession db eid = some session ∧
      ¬ (session.status ≠ "aggregating" ∧ session.status ≠ "decrypting") ∧
      db.partDecs.find? (fun pd => pd.electionId == eid && pd.trusteeId == tid) = none ∧
      db' = { db with
        partDecs := ⟨db.nextId, eid, tid, session.completedTrustees + 1,
          session.aggregatedCiphertext.map toString, true⟩ :: db.partDecs,
        sessions := db.sessions.map (fun s => if s.electionId == eid then
          { s with completedTrustees := s.completedTrustees + 1,
                   status := if s.status = "aggregating" then "decrypting" else s.status }
          else s),
        audits := ⟨eid, "partial_decrypt", tid, "success"⟩ :: db.audits,
        svcPrivateKey := some newSvcKey,
        nextId := db.nextId + 1 } ∧
      resp = ⟨db.nextId, session.completedTrustees + 1, session.requiredTrustees,
        session.completedTrustees + 1 ≥ session.requiredTrustees⟩ := by
  simp only [partDecrypt] at h
  split at h
  · exact absurd h (by simp)
  case _ session hfs =>
    split at h
    · exact absurd h (by simp)
    case _ hstat =>
      split at h
      · exact absurd h (by simp)
      case _ hdup =>
        split at h
        · exact absurd h (by simp)
        case _ trustee htr =>
          split at h
          · exact absurd h (by simp)
          case _ hks =>
            split at h
            · exact absurd h (by simp)
            case _ key hkey =>
              rw [hkey] at h
              rw [Except.ok.injEq, Prod.mk.injEq] at h
              exact ⟨session, key, hfs, hstat, hdup, h.1.symm, h.2.symm⟩

theorem find?_map_comm {α : Type} (p : α → Bool) (g : α → α) (l : List α)
    (hpg : ∀ a, p (g a) = p a) :
    (l.map g).find? p = (l.find? p).map g := by
  induction l with
  | nil => rfl
  | cons a t ih =>
    by_cases hpa : p a = true
    · rw [List.map_cons, List.find?_cons_of_pos _ (by rw [hpg a]; exact hpa),
        List.find?_cons_of_pos _ hpa, Option.map_some']
    · have hpa' : p a = false := by
        cases hq : p a
        · rfl
        · exact absurd hq hpa
      rw [List.map_cons, List.find?_cons_of_neg _ (by rw [hpg a, hpa']; simp),
        List.find?_cons_of_neg _ (by rw [hpa']; simp), ih]

/-- Success inversion for `startTallying`. -/
theorem startTallying_ok {cfgT : Nat} {db db' : DBState} {eid : String}
    {resp : StartResp} (h : startTallying cfgT db eid = Except.ok (db', resp)) :
    ∃ agg totalVotes,
      findSession db eid = none ∧
      db' = { db with
        sessions := ⟨db.nextId, eid, "aggregating", agg, cfgT, 0⟩ :: db.sessions,
        elections := db.elections.map (fun e =>
          if e.electionId == eid then { e with status := "tallying" } else e),
        audits := ⟨eid, "start_tally", "system", "success"⟩ :: db.audits,
        nextId := db.nextId + 1 } ∧
      resp = ⟨db.nextId, "aggregating", totalVotes, cfgT⟩ := by
  simp only [startTallying] at h
  split at h
  · exact absurd h (by simp)
  case _ election hel =>
    split at h
    · exact absurd h (by simp)
    case _ hstat =>
      split at h
      · exact absurd h (by simp)
      case _ hfs =>
        split at h
        · exact absurd h (by simp)
        case _ hempty =>
          split at h
          · exact absurd h (by simp)
          case _ n hpk =>
            split at h
            · exact absurd h (by simp)
            case _ agg hagg =>
              rw [Except.ok.injEq, Prod.mk.injEq] at h
              exact ⟨agg, _, hfs, h.1.symm, h.2.symm⟩

/-- Success inversion for `finalizeTally`, stated through the response
fields.  In particular: the partial decryptions are untouched, every session
row keeps its `completedTrustees`, the stored hash is `H` over the tally
with the `now` timestamp while the row's `createdAt` is stored separately,
and the total is the SUM of the decrypted counts (never compared to the
ballot count). -/
theorem finalizeTally_ok {H : HashInput → String} {now createdAt : String}
    {db db' : DBState} {eid : String} {resp : FinalizeResp}
    (h : finalizeTally H now createdAt db eid = Except.ok (db', resp)) :
    ∃ session,
      findSession db eid = some session ∧
      ¬ (session.completedTrustees < session.requiredTrustees) ∧
      resp.totalVotes = (resp.finalTally.map Prod.snd).sum ∧
      resp.verificationHash = H ⟨eid, resp.finalTally, resp.totalVotes, now⟩ ∧
      db'.results = ⟨eid, resp.finalTally, resp.totalVotes, resp.verificationHash,
        true, createdAt⟩ :: db.results ∧
      db'.sessions = db.sessions.map (fun s =>
        if s.electionId == eid then { s with status := "completed" } else s) ∧
      db'.partDecs = db.partDecs ∧
      db'.audits = ⟨eid, "finalize_tally", "system", "success"⟩ :: db.audits := by
  simp only [finalizeTally] at h
  split at h
  · exact absurd h (by simp)
  case _ session hfs =>
    split at h
    · exact absurd h (by simp)
    case _ hlt =>
      split at h
      · exact absurd h (by simp)
      case _ hpds =>
        split at h
        · exact absurd h (by simp)
        case _ kp kq hkey =>
          split at h
          · exact absurd h (by simp)
          case _ arr hcomb =>
            split at h
            · exact absurd h (by simp)
            case _ election hel =>
              rw [Except.ok.injEq, Prod.mk.injEq] at h
              obtain ⟨hdb, hresp⟩ := h
              subst hdb
              subst hresp
              exact ⟨session, hfs, hlt, rfl, rfl, rfl, rfl, rfl, rfl⟩

/-- Forward success of `finalizeTally`: with enough completed trustees and
verified partial decryptions, a loaded private key and an existing election
row, finalization always succeeds, whatever the decrypted counts are. -/
theorem finalizeTally_success (H : HashInput → String) (now createdAt : String)
    (db : DBState) (eid : String) (session : SessionRec) (election : ElectionRec)
    (kp kq : Nat)
    (hfs : findSession db eid = some session)
    (hge : ¬ session.completedTrustees < session.requiredTrustees)
    (hpds : ¬ (db.partDecs.filter
      (fun pd => pd.electionId == eid && pd.verified)).length < session.requiredTrustees)
    (hkey : db.svcPrivateKey = some (kp, kq))
    (hel : db.elections.find? (fun e => e.electionId == eid) = some election) :
    ∃ db', finalizeTally H now createdAt db eid = Except.ok (db',
      ⟨(List.range election.candidates.length).map
          (fun i => (election.candidates.getD i "",
            (decryptTally kp kq session.aggregatedCiphertext).getD i 0)),
        (((List.range election.candidates.length).map
          (fun i => (election.candidates.getD i "",
            (decryptTally kp kq session.aggregatedCiphertext).getD i 0))).map Prod.snd).sum,
        generateVerificationHash H eid
          ((List.range election.candidates.length).map
            (fun i => (election.candidates.getD i "",
              (decryptTally kp kq session.aggregatedCiphertext).getD i 0)))
          ((((List.range election.candidates.length).map
            (fun i => (election.candidates.getD i "",
              (decryptTally kp kq session.aggregatedCiphertext).getD i 0))).map Prod.snd).sum)
          now⟩) := by
  simp only [finalizeTally, hfs, hge, if_false, hkey, hel,
    combinePartialDecryptions, hpds, generateVerificationHash]
  exact ⟨_, rfl⟩

/-- C2 (amended): `finalize_tally` applies NO consistency check to the
decrypted plaintext: whenever enough trustees have completed and partials
are on file, it succeeds and persists a Completed result whose total is the
sum of the decrypted counts, whatever their relation to the number of
aggregated ballots; no TallyInconsistent error and no transition to Failed
exist in the code. -/
theorem claim_C2_no_consistency_check :
    ∀ (H : HashInput → String) (now createdAt : String) (db : DBState) (eid : String)
      (session : SessionRec) (election : ElectionRec) (kp kq : Nat),
      findSession db eid = some session →
      ¬ session.completedTrustees < session.requiredTrustees →
      ¬ (db.partDecs.filter (fun pd => pd.electionId == eid && pd.verified)).length
          < session.requiredTrustees →
      db.svcPrivateKey = some (kp, kq) →
      db.elections.find? (fun e => e.electionId == eid) = some election →
      ∃ db' resp, finalizeTally H now createdAt db eid = Except.ok (db', resp)
        ∧ resp.totalVotes = (resp.finalTally.map Prod.snd).sum
        ∧ resp.finalTally = (List.range election.candidates.length).map
            (fun i => (election.candidates.getD i "",
              (decryptTally kp kq session.aggregatedCiphertext).getD i 0))
        ∧ db'.results.find? (fun r => r.electionId == eid)
            = some ⟨eid, resp.finalTally, resp.totalVotes, resp.verificationHash,
                true, createdAt⟩
        ∧ (findSession db' eid).map (fun s => s.status) = some "completed" := by
  intro H now createdAt db eid session election kp kq hfs hge hpds hkey hel
  obtain ⟨db', hok⟩ := finalizeTally_success H now createdAt db eid session election
    kp kq hfs hge hpds hkey hel
  refine ⟨db', _, hok, ?_, ?_, ?_, ?_⟩
  · obtain ⟨s2, _, _, hsum, _, _, _, _, _⟩ := finalizeTally_ok hok
    exact hsum
  · rfl
  · obtain ⟨s2, _, _, _, _, hres, _, _, _⟩ := finalizeTally_ok hok
    rw [hres]
    rw [List.find?_cons_of_pos _ (by simp)]
  · obtain ⟨s2, hfs2, _, _, _, _, hsess, _, _⟩ := finalizeTally_ok hok
    have hfs2' : s2 = session := by
      rw [hfs] at hfs2
      exact (Option.some.injEq _ _).mp hfs2.symm ▸ rfl
    rw [findSession, hsess, find?_map_comm _ _ _ (by
      intro a
      by_cases hc : (a.electionId == eid) = true
      · rw [if_pos hc]
      · rw [if_neg hc])]
    rw [show db.sessions.find? (fun s => s.electionId == eid) = some session from hfs]
    have hps : (session.electionId == eid) = true :=
      @List.find?_some _ (fun s : SessionRec => s.electionId == eid) session db.sessions hfs
    have heq : session.electionId = eid := by simpa using hps
    simp [heq]

theorem claim_C2_no_consistency_check_witness :
    ∃ db' resp, finalizeTally (fun _ => "h") "t1" "t2" dbC2 "e1" = Except.ok (db', resp)
      ∧ resp.totalVotes = (resp.finalTally.map Prod.snd).sum
      ∧ resp.finalTally = (List.range (["A"] : List String).length).map
          (fun i => ((["A"] : List String).getD i "", (decryptTally 3 5 [158]).getD i 0))
      ∧ db'.results.find? (fun r => r.electionId == "e1")
          = some ⟨"e1", resp.finalTally, resp.totalVotes, resp.verificationHash, true, "t2"⟩
      ∧ (findSession db' "e1").map (fun s => s.status) = some "completed" :=
  claim_C2_no_consistency_check (fun _ => "h") "t1" "t2" dbC2 "e1"
    ⟨0, "e1", "decrypting", [158], 1, 1⟩ ⟨"e1", "tallying", ["A"], some (3, 5)⟩ 3 5
    (by rfl) (by decide) (by decide) (by rfl) (by rfl)

/-- C2 counterexample: the single stored ballot was tampered to a ciphertext
decrypting to 2; `finalize_tally` succeeds, persisting a Completed result
with total 2 although only 1 ballot was aggregated, and the session is
marked completed, not failed. -/
theorem claim_C2_counterexample :
    (dbC2.votes.filter (fun v => v.electionId == "e1" && !v.isTallied)).length = 1
    ∧ (finalizeTally (fun _ => "h") "t1" "t2" dbC2 "e1").map
        (fun x => (x.2.totalVotes,
          x.1.results.map (fun r => (r.electionId, r.totalVotes, r.isVerified)),
          x.1.sessions.map (fun s => s.status)))
      = Except.ok (2, [("e1", 2, true)], ["completed"]) := by
  exact ⟨by decide, by rfl⟩

/-- C6 (amended): `finalize_tally` fails with InsufficientTrustees exactly
when `completed_trustees < required_trustees`; the session status plays no
part in the guard.  The error is raised before any write, so the state is
unchanged. -/
theorem claim_C6_finalize_guard :
    ∀ (H : HashInput → String) (now createdAt : String) (db : DBState) (eid : String)
      (session : SessionRec),
      findSession db eid = some session →
      session.completedTrustees < session.requiredTrustees →
      finalizeTally H now createdAt db eid
        = Except.error ("Insufficient trustees: " ++ toString session.completedTrustees
            ++ " < " ++ toString session.requiredTrustees) := by
  intro H now createdAt db eid session hfs hlt
  simp only [finalizeTally, hfs, if_pos hlt]

/-- C6 counterexample: the session is in state "completed" (not Decrypting),
yet `finalize_tally` does not fail with InsufficientTrustees — it succeeds,
because the code never consults the session status. -/
theorem claim_C6_counterexample :
    (findSession dbC6 "e1").map
        (fun s => (s.status, s.completedTrustees, s.requiredTrustees))
      = some ("completed", 1, 1)
    ∧ (finalizeTally (fun _ => "h") "t1" "t2" dbC6 "e1").isOk = true := by
  exact ⟨by rfl, by rfl⟩

theorem claim_C6_finalize_guard_witness :
    (findSession dbC6w "e1" = some ⟨0, "e1", "decrypting", [158], 1, 0⟩
      ∧ (0 : Nat) < 1)
    ∧ finalizeTally (fun _ => "h") "t1" "t2" dbC6w "e1"
        = Except.error "Insufficient trustees: 0 < 1" :=
  ⟨⟨rfl, by decide⟩,
   claim_C6_finalize_guard (fun _ => "h") "t1" "t2" dbC6w "e1"
     ⟨0, "e1", "decrypting", [158], 1, 0⟩ rfl (by decide)⟩

/-- C7 (amended): `partial_decrypt` rejects a trustee exactly when the
trustee row is absent or its key share is missing; the trustee status is
never consulted. -/
theorem claim_C7_share_guard :
    ∀ (db : DBState) (eid tid : String) (session : SessionRec),
      findSession db eid = some session →
      ¬ (session.status ≠ "aggregating" ∧ session.status ≠ "decrypting") →
      db.partDecs.find? (fun pd => pd.electionId == eid && pd.trusteeId == tid) = none →
      (db.trustees.find? (fun t => t.trusteeId == tid) = none
        ∨ ∃ t, db.trustees.find? (fun t2 => t2.trusteeId == tid) = some t
            ∧ t.keyShare = none) →
      partDecrypt db eid tid = Except.error "Trustee not found or missing key share" := by
  intro db eid tid session hfs hstat hdup htr
  rcases htr with htr | ⟨t, htr, hks⟩
  · simp only [partDecrypt, hfs]
    rw [if_neg hstat]
    simp only [hdup, htr]
  · simp only [partDecrypt, hfs]
    rw [if_neg hstat]
    simp only [hdup, htr]
    rw [if_pos hks]

/-- C7 counterexample: the trustee is inactive (status ≠ Active) but holds a
share; `partial_decrypt` succeeds and persists a partial decryption instead
of failing with NotAuthorized. -/
theorem claim_C7_counterexample :
    dbC7.trustees.map (fun t => (t.trusteeId, t.status, t.keyShare.isSome))
      = [("t1", "inactive", true)]
    ∧ (partDecrypt dbC7 "e1" "t1").map
        (fun x => (x.1.partDecs.map (fun pd => (pd.electionId, pd.trusteeId)),
          x.2.completedTrustees))
      = Except.ok ([("e1", "t1")], 1) := by
  exact ⟨by rfl, by rfl⟩

theorem claim_C7_share_guard_witness :
    (findSession dbC7w "e1" = some ⟨0, "e1", "decrypting", [158], 1, 0⟩
      ∧ dbC7w.trustees.find? (fun t2 => t2.trusteeId == "t1")
          = some ⟨"t1", none, "active"⟩)
    ∧ partDecrypt dbC7w "e1" "t1"
        = Except.error "Trustee not found or missing key share" :=
  ⟨⟨rfl, rfl⟩,
   claim_C7_share_guard dbC7w "e1" "t1" ⟨0, "e1", "decrypting", [158], 1, 0⟩ rfl
     (by decide) rfl (Or.inr ⟨⟨"t1", none, "active"⟩, rfl, rfl⟩)⟩

/-- A second `partial_decrypt` with a partial already on file fails with the
duplicate-trustee error. -/
theorem partDecrypt_duplicate {db : DBState} {eid tid : String} {session : SessionRec}
    {pd : PartDecRec}
    (hfs : findSession db eid = some session)
    (hstat : ¬ (session.status ≠ "aggregating" ∧ session.status ≠ "decrypting"))
    (hpd : db.partDecs.find? (fun pd2 => pd2.electionId == eid && pd2.trusteeId == tid)
      = some pd) :
    partDecrypt db eid tid
      = Except.error "Trustee already performed partial decryption" := by
  simp only [partDecrypt, hfs]
  rw [if_neg hstat]
  simp only [hpd]

/-- C3 (amended): a second `partial_decrypt` call by the same trustee is NOT
idempotent: it fails with ValueError "Trustee already performed partial
decryption" instead of returning the prior result.  The failing retry writes
nothing, so across both calls `completed_trustees` is incremented exactly
once, exactly one partial-decryption row exists for the trustee, and exactly
one `partial_decrypt` audit entry was added. -/
theorem claim_C3_duplicate_partial_decrypt :
    ∀ (db db' : DBState) (eid tid : String) (resp : PartDecResp),
      partDecrypt db eid tid = Except.ok (db', resp) →
      partDecrypt db' eid tid
          = Except.error "Trustee already performed partial decryption"
      ∧ (findSession db' eid).map (fun s => s.completedTrustees)
          = (findSession db eid).map (fun s => s.completedTrustees + 1)
      ∧ (db'.partDecs.filter
            (fun pd => pd.electionId == eid && pd.trusteeId == tid)).length = 1
      ∧ (db'.audits.filter (fun a => a.operationType == "partial_decrypt"
            && a.performedBy == tid && a.electionId == eid)).length
          = (db.audits.filter (fun a => a.operationType == "partial_decrypt"
            && a.performedBy == tid && a.electionId == eid)).length + 1 := by
  intro db db' eid tid resp h
  obtain ⟨session, key, hfs, hstat, hdup, hdb, hresp⟩ := partDecrypt_ok h
  have hps : (session.electionId == eid) = true :=
    @List.find?_some _ (fun s : SessionRec => s.electionId == eid) session db.sessions hfs
  have hpd' : db'.partDecs
      = ⟨db.nextId, eid, tid, session.completedTrustees + 1,
          session.aggregatedCiphertext.map toString, true⟩ :: db.partDecs := by
    rw [hdb]
  have hsess' : db'.sessions = db.sessions.map (fun s =>
      if s.electionId == eid then
        { s with
            completedTrustees := s.completedTrustees + 1,
            status := if s.status = "aggregating" then "decrypting" else s.status }
      else s) := by
    rw [hdb]
  have haud' : db'.audits = ⟨eid, "partial_decrypt", tid, "success"⟩ :: db.audits := by
    rw [hdb]
  have hfs' : findSession db' eid = some
      { session with
          completedTrustees := session.completedTrustees + 1,
          status := if session.status = "aggregating" then "decrypting"
            else session.status } := by
    rw [findSession, hsess', find?_map_comm _ _ _ (by
      intro a
      by_cases hc : (a.electionId == eid) = true
      · rw [if_pos hc]
      · rw [if_neg hc])]
    rw [show db.sessions.find? (fun s => s.electionId == eid) = some session from hfs]
    rw [Option.map_some', if_pos hps]
  have hstat2 : ¬ ((if session.status = "aggregating" then "decrypting"
          else session.status) ≠ "aggregating"
      ∧ (if session.status = "aggregating" then "decrypting"
          else session.status) ≠ "decrypting") := by
    by_cases hsa : session.status = "aggregating"
    · rw [if_pos hsa]
      rintro ⟨-, h2⟩
      exact h2 rfl
    · rw [if_neg hsa]
      rintro ⟨h1, h2⟩
      rcases not_and_or.mp hstat with hh | hh
      · exact hsa (not_not.mp hh)
      · exact h2 (not_not.mp hh)
  have hnil : db.partDecs.filter
      (fun pd => pd.electionId == eid && pd.trusteeId == tid) = [] :=
    List.filter_eq_nil_iff.mpr (List.find?_eq_none.mp hdup)
  refine ⟨?_, ?_, ?_, ?_⟩
  · exact partDecrypt_duplicate hfs' hstat2
      (by rw [hpd']; exact List.find?_cons_of_pos _ (by simp))
  · rw [hfs', hfs]
    rfl
  · rw [hpd', List.filter_cons_of_pos (by simp), hnil]
    rfl
  · rw [haud', List.filter_cons_of_pos (by simp)]
    rw [List.length_cons]

/-- C3 counterexample: the first call succeeds; the retry does NOT return the
prior success result — it fails with a ValueError. -/
theorem claim_C3_counterexample :
    partDecrypt dbC6w "e1" "t1" = Except.ok (dbC3s, ⟨2, 1, 1, true⟩)
    ∧ partDecrypt dbC3s "e1" "t1"
        = Except.error "Trustee already performed partial decryption" := by
  exact ⟨by rfl, by rfl⟩

theorem claim_C3_duplicate_partial_decrypt_witness :
    partDecrypt dbC3s "e1" "t1"
        = Except.error "Trustee already performed partial decryption"
    ∧ (findSession dbC3s "e1").map (fun s => s.completedTrustees)
        = (findSession dbC6w "e1").map (fun s => s.completedTrustees + 1)
    ∧ (dbC3s.partDecs.filter
          (fun pd => pd.electionId == "e1" && pd.trusteeId == "t1")).length = 1
    ∧ (dbC3s.audits.filter (fun a => a.operationType == "partial_decrypt"
          && a.performedBy == "t1" && a.electionId == "e1")).length
        = (dbC6w.audits.filter (fun a => a.operationType == "partial_decrypt"
          && a.performedBy == "t1" && a.electionId == "e1")).length + 1 :=
  claim_C3_duplicate_partial_decrypt dbC6w dbC3s "e1" "t1" ⟨2, 1, 1, true⟩ (by rfl)

/-- C1 (code bug): `_generate_verification_hash` folds `datetime.utcnow()`
into the digest at finalization time, while `verify_results` recomputes the
digest with the row's later `created_at` timestamp.  Hence for every
successful finalization whose two timestamps hash differently, verifying the
UNMUTATED stored result already returns `is_valid = false` with the two
mismatched hashes — re-running the digest never reproduces the stored
`verification_hash`. -/
theorem claim_C1_stale_timestamp :
    ∀ (H : HashInput → String) (now createdAt : String) (db db' : DBState)
      (eid : String) (resp : FinalizeResp),
      finalizeTally H now createdAt db eid = Except.ok (db', resp) →
      H ⟨eid, resp.finalTally, resp.totalVotes, createdAt⟩
          ≠ H ⟨eid, resp.finalTally, resp.totalVotes, now⟩ →
      verifyResults H db' eid
        = Except.ok (false,
            H ⟨eid, resp.finalTally, resp.totalVotes, createdAt⟩,
            H ⟨eid, resp.finalTally, resp.totalVotes, now⟩) := by
  intro H now createdAt db db' eid resp h hne
  obtain ⟨session, hfs, hlt, hsum, hvh, hres, hsess, hpd, haud⟩ := finalizeTally_ok h
  have hb : (H ⟨eid, resp.finalTally, resp.totalVotes, createdAt⟩
      == H ⟨eid, resp.finalTally, resp.totalVotes, now⟩) = false :=
    beq_eq_false_iff_ne.mpr hne
  simp only [verifyResults, hres]
  rw [List.find?_cons_of_pos _ (by simp)]
  simp only [hvh, hb]

theorem claim_C1_stale_timestamp_witness :
    verifyResults (fun h => h.timestamp) dbC1s "e1"
      = Except.ok (false, "t2", "t1") :=
  claim_C1_stale_timestamp (fun h => h.timestamp) "t1" "t2" dbC2 dbC1s "e1"
    ⟨[("A", 2)], 2, "t1"⟩ (by rfl) (by decide)

theorem sessionInv_start {cfgT : Nat} {db db' : DBState} {eid : String}
    {resp : StartResp} (h : startTallying cfgT db eid = Except.ok (db', resp))
    (inv : SessionInv db) : SessionInv db' := by
  obtain ⟨agg, tv, hfs, hdb, hresp⟩ := startTallying_ok h
  have hsess : db'.sessions
      = ⟨db.nextId, eid, "aggregating", agg, cfgT, 0⟩ :: db.sessions := by
    rw [hdb]
  have hpd : db'.partDecs = db.partDecs := by
    rw [hdb]
  constructor
  · intro s hs
    rw [hsess] at hs
    rcases List.mem_cons.mp hs with hnew | hold
    · subst hnew
      rw [countPd, hpd]
      have hnil : db.partDecs.filter (fun pd => pd.electionId == eid) = [] := by
        apply List.filter_eq_nil_iff.mpr
        intro pd hpd2 hbeq
        obtain ⟨s0, hs0, hse⟩ := inv.2 pd hpd2
        have h0 : (s0.electionId == eid) = true := by
          rw [hse]; exact hbeq
        exact List.find?_eq_none.mp hfs s0 hs0 h0
      show (0 : Nat) = _
      rw [show (fun pd : PartDecRec => pd.electionId
          == (⟨db.nextId, eid, "aggregating", agg, cfgT, 0⟩ : SessionRec).electionId)
        = (fun pd : PartDecRec => pd.electionId == eid) from rfl, hnil]
      rfl
    · rw [countPd, hpd]
      exact inv.1 s hold
  · intro pd hpdm
    rw [hpd] at hpdm
    obtain ⟨s0, hs0, hse⟩ := inv.2 pd hpdm
    exact ⟨s0, by rw [hsess]; exact List.mem_cons_of_mem _ hs0, hse⟩

theorem sessionInv_pdec {db db' : DBState} {eid tid : String} {resp : PartDecResp}
    (h : partDecrypt db eid tid = Except.ok (db', resp)) (inv : SessionInv db) :
    SessionInv db' := by
  obtain ⟨session, key, hfs, hstat, hdup, hdb, hresp⟩ := partDecrypt_ok h
  have hsess : db'.sessions = db.sessions.map (fun s =>
      if s.electionId == eid then
        { s with
            completedTrustees := s.completedTrustees + 1,
            status := if s.status = "aggregating" then "decrypting" else s.status }
      else s) := by
    rw [hdb]
  have hpd : db'.partDecs
      = ⟨db.nextId, eid, tid, session.completedTrustees + 1,
          session.aggregatedCiphertext.map toString, true⟩ :: db.partDecs := by
    rw [hdb]
  constructor
  · intro s' hs'
    rw [hsess] at hs'
    obtain ⟨s, hsmem, hgs⟩ := List.mem_map.mp hs'
    have hinv := inv.1 s hsmem
    by_cases hc : (s.electionId == eid) = true
    · rw [if_pos hc] at hgs
      subst hgs
      have heq : s.electionId = eid := by simpa using hc
      rw [countPd, hpd]
      rw [List.filter_cons_of_pos (by simp [heq]), List.length_cons]
      exact congrArg (fun x => x + 1) hinv
    · rw [if_neg hc] at hgs
      subst hgs
      have hne : s.electionId ≠ eid := by simpa using hc
      rw [countPd, hpd]
      rw [List.filter_cons_of_neg (by simpa using fun hh => hne hh.symm)]
      exact hinv
  · intro pd hpdm
    rw [hpd] at hpdm
    rcases List.mem_cons.mp hpdm with hnew | hold
    · subst hnew
      have hsmem : session ∈ db.sessions := List.mem_of_find?_eq_some hfs
      have hps : (session.electionId == eid) = true :=
        @List.find?_some _ (fun s : SessionRec => s.electionId == eid) session
          db.sessions hfs
      refine ⟨{ session with
          completedTrustees := session.completedTrustees + 1,
          status := if session.status = "aggregating" then "decrypting"
            else session.status }, ?_, ?_⟩
      · rw [hsess]
        exact List.mem_map.mpr ⟨session, hsmem, by rw [if_pos hps]⟩
      · show session.electionId = _
        simpa using hps
    · obtain ⟨s0, hs0, hse⟩ := inv.2 pd hold
      by_cases hc : (s0.electionId == eid) = true
      · refine ⟨{ s0 with
            completedTrustees := s0.completedTrustees + 1,
            status := if s0.status = "aggregating" then "decrypting"
              else s0.status }, ?_, hse⟩
        rw [hsess]
        exact List.mem_map.mpr ⟨s0, hs0, by rw [if_pos hc]⟩
      · refine ⟨s0, ?_, hse⟩
        rw [hsess]
        exact List.mem_map.mpr ⟨s0, hs0, by rw [if_neg hc]⟩

theorem sessionInv_finalize {H : HashInput → String} {now createdAt : String}
    {db db' : DBState} {eid : String} {resp : FinalizeResp}
    (h : finalizeTally H now createdAt db eid = Except.ok (db', resp))
    (inv : SessionInv db) : SessionInv db' := by
  obtain ⟨session, hfs, hlt, hsum, hvh, hres, hsess, hpd, haud⟩ := finalizeTally_ok h
  constructor
  · intro s' hs'
    rw [hsess] at hs'
    obtain ⟨s, hsmem, hgs⟩ := List.mem_map.mp hs'
    have hinv := inv.1 s hsmem
    by_cases hc : (s.electionId == eid) = true
    · rw [if_pos hc] at hgs
      subst hgs
      rw [countPd, hpd]
      exact hinv
    · rw [if_neg hc] at hgs
      subst hgs
      rw [countPd, hpd]
      exact hinv
  · intro pd hpdm
    rw [hpd] at hpdm
    obtain ⟨s0, hs0, hse⟩ := inv.2 pd hpdm
    by_cases hc : (s0.electionId == eid) = true
    · exact ⟨{ s0 with status := "completed" },
        by rw [hsess]; exact List.mem_map.mpr ⟨s0, hs0, by rw [if_pos hc]⟩, hse⟩
    · exact ⟨s0,
        by rw [hsess]; exact List.mem_map.mpr ⟨s0, hs0, by rw [if_neg hc]⟩, hse⟩

theorem reachable_sessionInv {db : DBState} (h : Reachable db) : SessionInv db := by
  induction h with
  | init db hs hp =>
    constructor
    · intro s hsm
      rw [hs] at hsm
      exact absurd hsm (List.not_mem_nil s)
    · intro pd hm
      rw [hp] at hm
      exact absurd hm (List.not_mem_nil pd)
  | step_start cfgT db db' eid resp hdb h ih => exact sessionInv_start h ih
  | step_pdec db db' eid tid resp hdb h ih => exact sessionInv_pdec h ih
  | step_finalize H now createdAt db db' eid resp hdb h ih =>
    exact sessionInv_finalize h ih

theorem completedOf_start_le {cfgT : Nat} {db db' : DBState} {eid : String}
    {resp : StartResp} (h : startTallying cfgT db eid = Except.ok (db', resp))
    (e : String) : completedOf db e ≤ completedOf db' e := by
  obtain ⟨agg, tv, hfs, hdb, hresp⟩ := startTallying_ok h
  have hsess : db'.sessions
      = ⟨db.nextId, eid, "aggregating", agg, cfgT, 0⟩ :: db.sessions := by
    rw [hdb]
  simp only [completedOf, findSession, hsess]
  by_cases hc : (eid == e) = true
  · have heid : eid = e := by simpa using hc
    subst heid
    rw [show db.sessions.find? (fun s => s.electionId == eid) = none from hfs]
    exact Nat.zero_le _
  · rw [List.find?_cons_of_neg _ (by simpa using hc)]

theorem completedOf_pdec_le {db db' : DBState} {eid tid : String}
    {resp : PartDecResp} (h : partDecrypt db eid tid = Except.ok (db', resp))
    (e : String) : completedOf db e ≤ completedOf db' e := by
  obtain ⟨session, key, hfs, hstat, hdup, hdb, hresp⟩ := partDecrypt_ok h
  have hsess : db'.sessions = db.sessions.map (fun s =>
      if s.electionId == eid then
        { s with
            completedTrustees := s.completedTrustees + 1,
            status := if s.status = "aggregating" then "decrypting" else s.status }
      else s) := by
    rw [hdb]
  simp only [completedOf, findSession, hsess]
  rw [find?_map_comm _ _ _ (by
    intro a
    by_cases hc : (a.electionId == eid) = true
    · rw [if_pos hc]
    · rw [if_neg hc])]
  cases hfind : db.sessions.find? (fun s => s.electionId == e) with
  | none => exact Nat.le_refl _
  | some s =>
    rw [Option.map_some']
    show s.completedTrustees ≤ (if (s.electionId == eid) = true then
      { s with
          completedTrustees := s.completedTrustees + 1,
          status := if s.status = "aggregating" then "decrypting" else s.status }
      else s).completedTrustees
    by_cases hc : (s.electionId == eid) = true
    · rw [if_pos hc]
      exact Nat.le_succ _
    · rw [if_neg hc]

theorem completedOf_finalize_le {H : HashInput → String} {now createdAt : String}
    {db db' : DBState} {eid : String} {resp : FinalizeResp}
    (h : finalizeTally H now createdAt db eid = Except.ok (db', resp))
    (e : String) : completedOf db e ≤ completedOf db' e := by
  obtain ⟨session, hfs, hlt, hsum, hvh, hres, hsess, hpd, haud⟩ := finalizeTally_ok h
  simp only [completedOf, findSession, hsess]
  rw [find?_map_comm _ _ _ (by
    intro a
    by_cases hc : (a.electionId == eid) = true
    · rw [if_pos hc]
    · rw [if_neg hc])]
  cases hfind : db.sessions.find? (fun s => s.electionId == e) with
  | none => exact Nat.le_refl _
  | some s =>
    rw [Option.map_some']
    show s.completedTrustees
      ≤ (if (s.electionId == eid) = true then { s with status := "completed" }
          else s).completedTrustees
    by_cases hc : (s.electionId == eid) = true
    · rw [if_pos hc]
    · rw [if_neg hc]

/-- C8: in every state reachable by the tallying operations from a state
with no session and no partial decryption, each session's
`completed_trustees` equals the number of persisted partial-decryption rows
for its election; and no operation (`start_tallying`, `partial_decrypt`,
`finalize_tally`) ever decreases a session's `completed_trustees`. -/
theorem claim_C8_completed_trustees_invariant :
    (∀ db : DBState, Reachable db → ∀ s ∈ db.sessions,
        s.completedTrustees
          = (db.partDecs.filter (fun pd => pd.electionId == s.electionId)).length)
    ∧ (∀ (cfgT : Nat) (db db' : DBState) (eid : String) (resp : StartResp),
        startTallying cfgT db eid = Except.ok (db', resp) →
        ∀ e, completedOf db e ≤ completedOf db' e)
    ∧ (∀ (db db' : DBState) (eid tid : String) (resp : PartDecResp),
        partDecrypt db eid tid = Except.ok (db', resp) →
        ∀ e, completedOf db e ≤ completedOf db' e)
    ∧ (∀ (H : HashInput → String) (now createdAt : String) (db db' : DBState)
        (eid : String) (resp : FinalizeResp),
        finalizeTally H now createdAt db eid = Except.ok (db', resp) →
        ∀ e, completedOf db e ≤ completedOf db' e) := by
  refine ⟨?_, ?_, ?_, ?_⟩
  · intro db h s hs
    exact (reachable_sessionInv h).1 s hs
  · intro cfgT db db' eid resp h e
    exact completedOf_start_le h e
  · intro db db' eid tid resp h e
    exact completedOf_pdec_le h e
  · intro H now createdAt db db' eid resp h e
    exact completedOf_finalize_le h e

theorem claim_C8_completed_trustees_invariant_witness :
    ((⟨0, "e1", "aggregating", [158], 1, 0⟩ : SessionRec).completedTrustees
        = (dbC8a.partDecs.filter (fun pd => pd.electionId
            == (⟨0, "e1", "aggregating", [158], 1, 0⟩ : SessionRec).electionId)).length)
    ∧ completedOf dbC8z "e1" ≤ completedOf dbC8a "e1"
    ∧ completedOf dbC6w "e1" ≤ completedOf dbC3s "e1"
    ∧ completedOf dbC2 "e1" ≤ completedOf dbC1s "e1" := by
  refine ⟨?_, ?_, ?_, ?_⟩
  · exact (claim_C8_completed_trustees_invariant.1 dbC8a
      (Reachable.step_start 1 dbC8z dbC8a "e1" ⟨0, "aggregating", 1, 1⟩
        (Reachable.init dbC8z rfl rfl) (by rfl)))
      ⟨0, "e1", "aggregating", [158], 1, 0⟩ (by simp [dbC8a])
  · exact claim_C8_completed_trustees_invariant.2.1 1 dbC8z dbC8a "e1"
      ⟨0, "aggregating", 1, 1⟩ (by rfl) "e1"
  · exact claim_C8_completed_trustees_invariant.2.2.1 dbC6w dbC3s "e1" "t1"
      ⟨2, 1, 1, true⟩ (by rfl) "e1"
  · exact claim_C8_completed_trustees_invariant.2.2.2 (fun hi => hi.timestamp)
      "t1" "t2" dbC2 dbC1s "e1" ⟨[("A", 2)], 2, "t1"⟩ (by rfl) "e1"
